import Mathlib

/-
Verification of the card-identification pipeline of the tcg-listing-app
repository.

This file gives a shallow embedding in Lean 4 of the string-processing,
normalization, token-extraction, candidate-resolution and variant
summarization code of `src/streamlit_ocr_test.py` and of the ingestion-side
normalizers in `src/scripts/backfill_ext_number.py` and
`src/scripts/ingest_products.py`, and proves theorems settling the frozen
claims about that code.

Modelling conventions:
- Python strings are `String` / `List Char`.  The embedding models the ASCII
  fragment of Python's string semantics: `str.upper` / `str.lower` act on the
  basic latin letters, the regex classes `\d`, `\s`, `\w` are the ASCII
  classes, `str.splitlines` splits on LF, CRLF and CR.
- Python `int()` is modelled with optional surrounding whitespace, an
  optional sign, and single underscores allowed between digits.
- Each regular-expression search of the source is embedded as a direct
  scanner implementing the leftmost-match semantics of that concrete
  pattern.  For each pattern the greedy quantifiers are deterministic
  because the character classes involved (digits, whitespace, letters,
  the literals) are pairwise disjoint, so backtracking never produces a
  different match; the scanners below implement the resulting
  deterministic reading, including the word-boundary checks.
-/

/-! ### Character-level primitives (ASCII model of Python's char classes) -/

/-- Regex class `\d` (ASCII). -/
def isDigitC (c : Char) : Bool := decide (48 ≤ c.toNat ∧ c.toNat ≤ 57)

/-- ASCII upper-case letter. -/
def isUpperC (c : Char) : Bool := decide (65 ≤ c.toNat ∧ c.toNat ≤ 90)

/-- ASCII lower-case letter. -/
def isLowerC (c : Char) : Bool := decide (97 ≤ c.toNat ∧ c.toNat ≤ 122)

/-- Regex class `[A-Za-z]` (with `re.I`, `[A-Z]` is this class). -/
def isAlphaC (c : Char) : Bool := isUpperC c || isLowerC c

/-- Regex class `\s` (ASCII): space, tab, LF, VT, FF, CR. -/
def isWsC (c : Char) : Bool :=
  decide (c.toNat = 32 ∨ c.toNat = 9 ∨ c.toNat = 10 ∨ c.toNat = 11 ∨ c.toNat = 12 ∨ c.toNat = 13)

/-- Regex class `\w` (ASCII): letters, digits, underscore. -/
def isWordC (c : Char) : Bool := isAlphaC c || isDigitC c || decide (c.toNat = 95)

/-- Model of Python `str.upper` on one character (ASCII). -/
def upChar (c : Char) : Char :=
  if 97 ≤ c.toNat ∧ c.toNat ≤ 122 then Char.ofNat (c.toNat - 32) else c

/-- Model of Python `str.lower` on one character (ASCII). -/
def lowChar (c : Char) : Char :=
  if 65 ≤ c.toNat ∧ c.toNat ≤ 90 then Char.ofNat (c.toNat + 32) else c

/-- Numeric value of a digit character. -/
def digitVal (c : Char) : Nat := c.toNat - 48

/-- The decimal digit character for a value below ten. -/
def digitChr (m : Nat) : Char := Char.ofNat (48 + m)

theorem toNat_ofNatC (n : Nat) (h : n < 55296) : (Char.ofNat n).toNat = n := by
  have hv : n.isValidChar := Or.inl h
  rw [Char.ofNat, dif_pos hv]
  simp [Char.ofNatAux, Char.toNat, UInt32.toNat, UInt32.ofNat', BitVec.toNat_ofNatLt]

theorem charEq_of_toNat {a b : Char} (h : a.toNat = b.toNat) : a = b := by
  have : Char.ofNat a.toNat = Char.ofNat b.toNat := by rw [h]
  rwa [Char.ofNat_toNat, Char.ofNat_toNat] at this

theorem charEq_iff_toNat {a b : Char} : a = b ↔ a.toNat = b.toNat :=
  ⟨fun h => by rw [h], charEq_of_toNat⟩

theorem upChar_toNat (c : Char) :
    (upChar c).toNat = if 97 ≤ c.toNat ∧ c.toNat ≤ 122 then c.toNat - 32 else c.toNat := by
  unfold upChar
  split
  · next h => exact toNat_ofNatC _ (by omega)
  · rfl

theorem lowChar_toNat (c : Char) :
    (lowChar c).toNat = if 65 ≤ c.toNat ∧ c.toNat ≤ 90 then c.toNat + 32 else c.toNat := by
  unfold lowChar
  split
  · next h => exact toNat_ofNatC _ (by omega)
  · rfl

theorem isWsC_upChar (c : Char) : isWsC (upChar c) = isWsC c := by
  simp only [isWsC, decide_eq_decide, upChar_toNat]
  split <;> omega

theorem isDigitC_upChar (c : Char) : isDigitC (upChar c) = isDigitC c := by
  simp only [isDigitC, decide_eq_decide, upChar_toNat]
  split <;> omega

theorem isAlphaC_upChar (c : Char) : isAlphaC (upChar c) = isAlphaC c := by
  simp only [isAlphaC, isUpperC, isLowerC, Bool.or_eq_true, decide_eq_true_eq, upChar_toNat,
    ← Bool.decide_or, decide_eq_decide]
  split <;> omega

theorem upChar_upChar (c : Char) : upChar (upChar c) = upChar c := by
  apply charEq_of_toNat
  rw [upChar_toNat, upChar_toNat]
  by_cases h : 97 ≤ c.toNat ∧ c.toNat ≤ 122
  · rw [if_pos h, if_neg (by omega)]
  · rw [if_neg h, if_neg h]

theorem upChar_eq_slash_iff (c : Char) : upChar c = '/' ↔ c = '/' := by
  have h47 : ('/' : Char).toNat = 47 := by decide
  rw [charEq_iff_toNat, charEq_iff_toNat, upChar_toNat, h47]
  split <;> omega

theorem upChar_of_not_lower {c : Char} (h : ¬ (97 ≤ c.toNat ∧ c.toNat ≤ 122)) :
    upChar c = c := by
  unfold upChar
  rw [if_neg h]

theorem upChar_of_digit {c : Char} (h : isDigitC c = true) : upChar c = c := by
  apply upChar_of_not_lower
  simp only [isDigitC, decide_eq_true_eq] at h
  omega

theorem upChar_of_ws {c : Char} (h : isWsC c = true) : upChar c = c := by
  apply upChar_of_not_lower
  simp only [isWsC, decide_eq_true_eq] at h
  omega

theorem isWsC_lowChar (c : Char) : isWsC (lowChar c) = isWsC c := by
  simp only [isWsC, decide_eq_decide, lowChar_toNat]
  split <;> omega

theorem digitChr_toNat {m : Nat} (h : m < 10) : (digitChr m).toNat = 48 + m :=
  toNat_ofNatC _ (by omega)

theorem isDigitC_digitChr {m : Nat} (h : m < 10) : isDigitC (digitChr m) = true := by
  simp only [isDigitC, decide_eq_true_eq, digitChr_toNat h]
  omega

theorem digitVal_digitChr {m : Nat} (h : m < 10) : digitVal (digitChr m) = m := by
  simp only [digitVal, digitChr_toNat h]
  omega

theorem digitChr_ne_zeroChar {m : Nat} (h1 : 1 ≤ m) (h2 : m < 10) : digitChr m ≠ '0' := by
  have h48 : ('0' : Char).toNat = 48 := by decide
  rw [Ne, charEq_iff_toNat, digitChr_toNat h2, h48]
  omega

theorem not_isWsC_of_isDigitC {c : Char} (h : isDigitC c = true) : isWsC c = false := by
  simp only [isDigitC, decide_eq_true_eq] at h
  simp only [isWsC, decide_eq_false_iff_not]
  omega

theorem digitC_ne_plus {c : Char} (h : isDigitC c = true) : c ≠ '+' := by
  simp only [isDigitC, decide_eq_true_eq] at h
  have h43 : ('+' : Char).toNat = 43 := by decide
  rw [Ne, charEq_iff_toNat, h43]
  omega

theorem digitC_ne_minus {c : Char} (h : isDigitC c = true) : c ≠ '-' := by
  simp only [isDigitC, decide_eq_true_eq] at h
  have h45 : ('-' : Char).toNat = 45 := by decide
  rw [Ne, charEq_iff_toNat, h45]
  omega

theorem digitC_ne_slash {c : Char} (h : isDigitC c = true) : c ≠ '/' := by
  simp only [isDigitC, decide_eq_true_eq] at h
  have h47 : ('/' : Char).toNat = 47 := by decide
  rw [Ne, charEq_iff_toNat, h47]
  omega

theorem wsC_ne_slash {c : Char} (h : isWsC c = true) : c ≠ '/' := by
  simp only [isWsC, decide_eq_true_eq] at h
  have h47 : ('/' : Char).toNat = 47 := by decide
  rw [Ne, charEq_iff_toNat, h47]
  omega

/-! ### Decimal rendering and Python `int()` parsing -/

/-- Little-endian decimal digits of a natural number, with explicit fuel so
that the definition is structurally recursive (the fuel is always at least
the number being rendered). -/
def digitsRevF : Nat → Nat → List Char
  | 0, _ => []
  | f + 1, n => if n = 0 then [] else digitChr (n % 10) :: digitsRevF f (n / 10)

/-- Model of Python decimal rendering of a nonnegative integer
(`str(n)` / `f-string` with no padding). -/
def natRender (n : Nat) : List Char :=
  if n = 0 then ['0'] else (digitsRevF n n).reverse

/-- Model of Python `f-string` zero-padded rendering `f"{n:0{w}d}"`. -/
def padRender (n w : Nat) : List Char :=
  List.replicate (w - (natRender n).length) '0' ++ natRender n

/-- Model of Python decimal rendering of an integer (`str(i)`). -/
def intRender (i : Int) : List Char :=
  if i < 0 then '-' :: natRender i.natAbs else natRender i.natAbs

/-- Numeric value of a list of decimal digit characters. -/
def digitsVal (l : List Char) : Nat :=
  l.foldl (fun a c => 10 * a + digitVal c) 0

theorem digitsRevF_zero (f : Nat) : digitsRevF f 0 = [] := by
  cases f <;> simp [digitsRevF]

theorem digitsRevF_norm : ∀ n f : Nat, n ≤ f → digitsRevF f n = digitsRevF n n := by
  intro n
  induction n using Nat.strong_induction_on with
  | _ n ih =>
    intro f hf
    by_cases hn : n = 0
    · subst hn; rw [digitsRevF_zero, digitsRevF_zero]
    · obtain ⟨m, rfl⟩ : ∃ m, n = m + 1 := by
        cases n
        · exact absurd rfl hn
        · exact ⟨_, rfl⟩
      obtain ⟨f0, rfl⟩ : ∃ f0, f = f0 + 1 := by
        cases f
        · omega
        · exact ⟨_, rfl⟩
      have hd : (m + 1) / 10 < m + 1 := Nat.div_lt_self (by omega) (by omega)
      show (if m + 1 = 0 then _ else _) = (if m + 1 = 0 then _ else _)
      rw [if_neg hn, if_neg hn]
      rw [ih ((m + 1) / 10) hd f0 (by omega)]
      rw [ih ((m + 1) / 10) hd m (by omega)]

theorem digitsRevF_fuel (f g n : Nat) (hf : n ≤ f) (hg : n ≤ g) :
    digitsRevF f n = digitsRevF g n :=
  (digitsRevF_norm n f hf).trans (digitsRevF_norm n g hg).symm

theorem digitsRevF_succ {n : Nat} (hn : n ≠ 0) :
    digitsRevF n n = digitChr (n % 10) :: digitsRevF (n / 10) (n / 10) := by
  obtain ⟨m, rfl⟩ : ∃ m, n = m + 1 := by
    cases n
    · exact absurd rfl hn
    · exact ⟨_, rfl⟩
  show (if m + 1 = 0 then _ else _) = _
  rw [if_neg hn]
  have hd : (m + 1) / 10 < m + 1 := Nat.div_lt_self (by omega) (by omega)
  rw [digitsRevF_fuel m ((m + 1) / 10) ((m + 1) / 10) (by omega) (by omega)]

theorem digitsRevF_all_digits : ∀ n : Nat, ∀ c ∈ digitsRevF n n, isDigitC c = true := by
  intro n
  induction n using Nat.strong_induction_on with
  | _ n ih =>
    by_cases hn : n = 0
    · subst hn; rw [digitsRevF_zero]; intro c hc; cases hc
    · rw [digitsRevF_succ hn]
      intro c hc
      rcases List.mem_cons.mp hc with h | h
      · subst h; exact isDigitC_digitChr (Nat.mod_lt _ (by omega))
      · exact ih (n / 10) (Nat.div_lt_self (Nat.pos_of_ne_zero hn) (by omega)) c h

theorem natRender_all_digits (n : Nat) : ∀ c ∈ natRender n, isDigitC c = true := by
  unfold natRender
  split
  · intro c hc
    simp only [List.mem_singleton] at hc
    subst hc; decide
  · intro c hc
    exact digitsRevF_all_digits n c (List.mem_reverse.mp hc)

theorem natRender_ne_nil (n : Nat) : natRender n ≠ [] := by
  unfold natRender
  split
  · simp
  · next hn =>
    rw [digitsRevF_succ hn]
    simp

theorem foldl_val_shift (l : List Char) (a : Nat) :
    l.foldl (fun a c => 10 * a + digitVal c) a = a * 10 ^ l.length + digitsVal l := by
  induction l generalizing a with
  | nil => simp [digitsVal]
  | cons c r ih =>
    show r.foldl _ (10 * a + digitVal c) = _
    rw [ih (10 * a + digitVal c)]
    have : digitsVal (c :: r) = digitsVal r + digitVal c * 10 ^ r.length := by
      show r.foldl _ (10 * 0 + digitVal c) = _
      rw [ih (10 * 0 + digitVal c)]
      ring
    rw [this]
    simp [List.length_cons, pow_succ]
    ring

theorem digitsVal_append (l m : List Char) :
    digitsVal (l ++ m) = digitsVal l * 10 ^ m.length + digitsVal m := by
  unfold digitsVal
  rw [List.foldl_append]
  exact foldl_val_shift m _

theorem digitsVal_concat (l : List Char) (c : Char) :
    digitsVal (l ++ [c]) = 10 * digitsVal l + digitVal c := by
  rw [digitsVal_append]
  simp [digitsVal]
  ring

theorem digitsVal_natRender (n : Nat) : digitsVal (natRender n) = n := by
  unfold natRender
  split
  · next h => subst h; decide
  · next h =>
    induction n using Nat.strong_induction_on with
    | _ n ih =>
      rw [digitsRevF_succ h]
      by_cases h10 : n / 10 = 0
      · rw [h10, digitsRevF_zero]
        simp only [List.reverse_cons, List.reverse_nil, List.nil_append]
        show digitsVal ([] ++ [digitChr (n % 10)]) = n
        rw [digitsVal_concat]
        simp [digitsVal]
        rw [digitVal_digitChr (Nat.mod_lt _ (by omega))]
        omega
      · rw [List.reverse_cons, digitsVal_concat, ih (n / 10) (Nat.div_lt_self (Nat.pos_of_ne_zero h) (by omega)) h10]
        rw [digitVal_digitChr (Nat.mod_lt _ (by omega))]
        omega

theorem digitsRevF_length_le : ∀ n k : Nat, n < 10 ^ k → (digitsRevF n n).length ≤ k := by
  intro n
  induction n using Nat.strong_induction_on with
  | _ n ih =>
    intro k hk
    by_cases hn : n = 0
    · subst hn; rw [digitsRevF_zero]; exact Nat.zero_le _
    · rw [digitsRevF_succ hn]
      have hkpos : k ≠ 0 := by
        intro h0
        subst h0
        simp at hk
        omega
      obtain ⟨k0, rfl⟩ : ∃ k0, k = k0 + 1 := by
        cases k
        · exact absurd rfl hkpos
        · exact ⟨_, rfl⟩
      have hdiv : n / 10 < 10 ^ k0 := by
        rw [Nat.div_lt_iff_lt_mul (by omega)]
        calc n < 10 ^ (k0 + 1) := hk
        _ = 10 ^ k0 * 10 := by ring
      have := ih (n / 10) (Nat.div_lt_self (Nat.pos_of_ne_zero hn) (by omega)) k0 hdiv
      simp only [List.length_cons]
      omega

theorem natRender_length_le {n k : Nat} (hk : 1 ≤ k) (h : n < 10 ^ k) :
    (natRender n).length ≤ k := by
  unfold natRender
  split
  · simpa
  · rw [List.length_reverse]
    exact digitsRevF_length_le n k h

theorem digitsRevF_ne_nil {n : Nat} (hn : n ≠ 0) : digitsRevF n n ≠ [] := by
  rw [digitsRevF_succ hn]
  simp

theorem digitsRevF_getLast?_ne_zero :
    ∀ n : Nat, n ≠ 0 → (digitsRevF n n).getLast? ≠ some '0' := by
  intro n
  induction n using Nat.strong_induction_on with
  | _ n ih =>
    intro hn
    by_cases h10 : n / 10 = 0
    · have e : digitsRevF n n = [digitChr (n % 10)] := by
        rw [digitsRevF_succ hn, h10, digitsRevF_zero]
      rw [e]
      have hmod : n % 10 = n := by omega
      have : digitChr (n % 10) ≠ '0' := by
        rw [hmod]
        exact digitChr_ne_zeroChar (by omega) (by omega)
      simp [List.getLast?, this]
    · have e : digitsRevF n n = digitChr (n % 10) :: digitsRevF (n / 10) (n / 10) :=
        digitsRevF_succ hn
      obtain ⟨c2, r2, e2⟩ : ∃ c2 r2, digitsRevF (n / 10) (n / 10) = c2 :: r2 := by
        cases hd : digitsRevF (n / 10) (n / 10)
        · exact absurd hd (digitsRevF_ne_nil h10)
        · exact ⟨_, _, rfl⟩
      rw [e, e2, List.getLast?_cons_cons, ← e2]
      exact ih (n / 10) (Nat.div_lt_self (Nat.pos_of_ne_zero hn) (by omega)) h10

theorem natRender_head?_ne_zero {n : Nat} (hn : n ≠ 0) : (natRender n).head? ≠ some '0' := by
  unfold natRender
  rw [if_neg hn, List.head?_reverse]
  exact digitsRevF_getLast?_ne_zero n hn

theorem digitsVal_replicate_zero (k : Nat) (l : List Char) :
    digitsVal (List.replicate k '0' ++ l) = digitsVal l := by
  induction k with
  | zero => simp
  | succ k ih =>
    rw [List.replicate_succ, List.cons_append]
    show digitsVal (List.replicate k '0' ++ l) = _
    exact ih

theorem digitsVal_padRender (n w : Nat) : digitsVal (padRender n w) = n := by
  unfold padRender
  rw [digitsVal_replicate_zero, digitsVal_natRender]

theorem padRender_all_digits (n w : Nat) : ∀ c ∈ padRender n w, isDigitC c = true := by
  intro c hc
  rcases List.mem_append.mp hc with h | h
  · rw [(List.mem_replicate.mp h).2]; decide
  · exact natRender_all_digits n c h

theorem padRender_length (n w : Nat) :
    (padRender n w).length = max w (natRender n).length := by
  unfold padRender
  rw [List.length_append, List.length_replicate]
  omega

theorem padRender_head?_of_lt {n w : Nat} (h : (natRender n).length < w) :
    (padRender n w).head? = some '0' := by
  unfold padRender
  obtain ⟨k, hk⟩ : ∃ k, w - (natRender n).length = k + 1 := by
    have : 0 < w - (natRender n).length := by omega
    exact ⟨_, (Nat.succ_pred_eq_of_pos this).symm⟩
  rw [hk, List.replicate_succ]
  rfl

theorem padRender_eq_natRender_of_le {n w : Nat} (h : w ≤ (natRender n).length) :
    padRender n w = natRender n := by
  unfold padRender
  rw [Nat.sub_eq_zero_of_le h]
  rfl

/-! ### Python `str.strip` and `int()` -/

/-- Model of Python `str.strip()` (whitespace at both ends removed). -/
def pyStripL (l : List Char) : List Char :=
  (l.dropWhile isWsC).rdropWhile isWsC

theorem pyStripL_of_no_ws {l : List Char} (h : ∀ c ∈ l, isWsC c = false) :
    pyStripL l = l := by
  unfold pyStripL
  have h1 : l.dropWhile isWsC = l := by
    rw [List.dropWhile_eq_self_iff]
    intro hl
    rw [h _ (List.get_mem l 0 hl)]
    simp
  rw [h1, List.rdropWhile_eq_self_iff]
  intro hl
  rw [h _ (List.getLast_mem hl)]
  simp

theorem dropWhile_of_head_not {p : Char → Bool} {l : List Char} {c : Char}
    (hc : l.head? = some c) (h : p c = false) : l.dropWhile p = l := by
  cases l with
  | nil => rfl
  | cons a r =>
    simp only [List.head?_cons, Option.some.injEq] at hc
    subst hc
    rw [List.dropWhile_cons_of_neg]
    simp [h]

theorem pyStripL_idem (l : List Char) : pyStripL (pyStripL l) = pyStripL l := by
  unfold pyStripL
  set Y := l.dropWhile isWsC with hY
  have hstable : Y.dropWhile isWsC = Y := List.dropWhile_idempotent _ _
  obtain ⟨t, ht⟩ := List.rdropWhile_prefix isWsC Y
  have hdrop : (Y.rdropWhile isWsC).dropWhile isWsC = Y.rdropWhile isWsC := by
    cases hR : Y.rdropWhile isWsC with
    | nil => rfl
    | cons c r =>
      have hcf : isWsC c = false := by
        rw [hR] at ht
        rw [← ht, List.cons_append, List.dropWhile_cons] at hstable
        by_contra hc
        rw [Bool.not_eq_false] at hc
        rw [if_pos hc] at hstable
        have hlen := (List.dropWhile_sublist (l := r ++ t) isWsC).length_le
        rw [hstable] at hlen
        simp at hlen
      exact dropWhile_of_head_not (l := c :: r) rfl hcf
  rw [hdrop, List.rdropWhile_idempotent]

/-- Digit-run continuation of Python `int()` literal parsing: after an initial
digit, digits may follow, with single underscores allowed between digits.
The flag records that the previous character was an underscore (so the next
character must be a digit and the run must not end). -/
def pyDigitsRun : List Char → Nat → Bool → Option Nat
  | [], a, afterU => if afterU then none else some a
  | c :: r, a, afterU =>
    if isDigitC c then pyDigitsRun r (10 * a + digitVal c) false
    else if afterU then none
    else if c = '_' then pyDigitsRun r a true
    else none

/-- Python unsigned decimal literal: one digit, then `pyDigitsRun`. -/
def pyDigits? : List Char → Option Nat
  | [] => none
  | c :: r => if isDigitC c then pyDigitsRun r (digitVal c) false else none

/-- Signed decimal literal (no surrounding whitespace): optional sign then
an underscore-separated digit literal. -/
def pySigned? : List Char → Option Int
  | [] => none
  | c :: r =>
    if c = '+' then (pyDigits? r).map (fun n => (n : Int))
    else if c = '-' then (pyDigits? r).map (fun n => -(n : Int))
    else (pyDigits? (c :: r)).map (fun n => (n : Int))

/-- Model of Python `int(s)` for a decimal string: optional surrounding
whitespace, optional sign, then an underscore-separated digit literal;
`none` models the `ValueError`. -/
def pyIntL? (l : List Char) : Option Int :=
  pySigned? (pyStripL l)

theorem pyDigitsRun_all_digits {l : List Char} (h : ∀ c ∈ l, isDigitC c = true) (a : Nat) :
    pyDigitsRun l a false = some (l.foldl (fun a c => 10 * a + digitVal c) a) := by
  induction l generalizing a with
  | nil => rfl
  | cons c r ih =>
    have hc : isDigitC c = true := h c (by simp)
    simp only [pyDigitsRun, if_pos hc]
    exact ih (fun x hx => h x (by simp [hx])) _

theorem pyDigits?_all_digits {l : List Char} (hne : l ≠ []) (h : ∀ c ∈ l, isDigitC c = true) :
    pyDigits? l = some (digitsVal l) := by
  cases l with
  | nil => exact absurd rfl hne
  | cons c r =>
    have hc : isDigitC c = true := h c (by simp)
    simp only [pyDigits?, if_pos hc]
    rw [pyDigitsRun_all_digits (fun x hx => h x (by simp [hx]))]
    have hz : 10 * 0 + digitVal c = digitVal c := by omega
    simp [digitsVal, List.foldl_cons, hz]

theorem pyDigits?_natRender (n : Nat) : pyDigits? (natRender n) = some n := by
  rw [pyDigits?_all_digits (natRender_ne_nil n) (natRender_all_digits n), digitsVal_natRender]

theorem natRender_no_ws (n : Nat) : ∀ c ∈ natRender n, isWsC c = false :=
  fun c hc => not_isWsC_of_isDigitC (natRender_all_digits n c hc)

theorem pySigned?_natRender (n : Nat) : pySigned? (natRender n) = some (n : Int) := by
  obtain ⟨c, r, hcr⟩ : ∃ c r, natRender n = c :: r := by
    cases h : natRender n
    · exact absurd h (natRender_ne_nil n)
    · exact ⟨_, _, rfl⟩
  have hc : isDigitC c = true := by
    apply natRender_all_digits n
    rw [hcr]
    simp
  rw [hcr]
  simp only [pySigned?]
  rw [if_neg (digitC_ne_plus hc), if_neg (digitC_ne_minus hc), ← hcr, pyDigits?_natRender]
  rfl

theorem pyIntL?_intRender (i : Int) : pyIntL? (intRender i) = some i := by
  unfold pyIntL? intRender
  by_cases hi : i < 0
  · rw [if_pos hi]
    have hstrip : pyStripL ('-' :: natRender i.natAbs) = '-' :: natRender i.natAbs := by
      apply pyStripL_of_no_ws
      intro c hc
      rcases List.mem_cons.mp hc with h | h
      · subst h; decide
      · exact natRender_no_ws _ _ h
    rw [hstrip]
    simp [pySigned?, pyDigits?_natRender]
    rw [abs_of_neg hi, neg_neg]
  · rw [if_neg hi]
    rw [pyStripL_of_no_ws (natRender_no_ws _), pySigned?_natRender]
    congr 1
    omega

/-! ### Python `str.split("/")` -/

/-- Model of Python `raw.split("/")`. -/
def splitSlash : List Char → List (List Char)
  | [] => [[]]
  | c :: r =>
    if c = '/' then [] :: splitSlash r
    else
      match splitSlash r with
      | [] => [[c]]
      | p :: ps => (c :: p) :: ps

theorem splitSlash_ne_nil (l : List Char) : splitSlash l ≠ [] := by
  cases l with
  | nil => simp [splitSlash]
  | cons c r =>
    simp only [splitSlash]
    split
    · simp
    · cases h : splitSlash r
      · simp
      · simp

theorem splitSlash_no_slash {l : List Char} (h : ∀ c ∈ l, c ≠ '/') : splitSlash l = [l] := by
  induction l with
  | nil => rfl
  | cons c r ih =>
    have hc : c ≠ '/' := h c (by simp)
    simp only [splitSlash]
    rw [if_neg hc, ih (fun x hx => h x (by simp [hx]))]

theorem splitSlash_cons_slash (r : List Char) : splitSlash ('/' :: r) = [] :: splitSlash r := by
  simp [splitSlash]

theorem splitSlash_cons_other {c : Char} (hc : c ≠ '/') (r : List Char) {p : List Char}
    {ps : List (List Char)} (hr : splitSlash r = p :: ps) :
    splitSlash (c :: r) = (c :: p) :: ps := by
  simp only [splitSlash]
  rw [if_neg hc, hr]

theorem splitSlash_decomp (l : List Char) : ∃ p ps, splitSlash l = p :: ps := by
  cases h : splitSlash l
  · exact absurd h (splitSlash_ne_nil l)
  · exact ⟨_, _, rfl⟩

theorem splitSlash_decomp_last (l : List Char) : ∃ qs q, splitSlash l = qs ++ [q] := by
  rcases List.eq_nil_or_concat (splitSlash l) with h | ⟨L, b, h⟩
  · exact absurd h (splitSlash_ne_nil l)
  · exact ⟨L, b, by rw [h, List.concat_eq_append]⟩

theorem splitSlash_append {l m : List Char} {p : List Char} {ps : List (List Char)}
    (h : ∀ c ∈ l, c ≠ '/') (hm : splitSlash m = p :: ps) :
    splitSlash (l ++ m) = (l ++ p) :: ps := by
  induction l with
  | nil => simpa using hm
  | cons c r ih =>
    have hc : c ≠ '/' := h c (by simp)
    have hih := ih (fun x hx => h x (by simp [hx]))
    show splitSlash (c :: (r ++ m)) = _
    rw [splitSlash_cons_other hc _ hih]
    rfl

theorem concat_inj {α : Type} {as bs : List α} {a b : α} (h : as ++ [a] = bs ++ [b]) :
    as = bs ∧ a = b := by
  obtain ⟨h1, h2⟩ := List.append_inj' h rfl
  exact ⟨h1, by simpa using h2⟩

theorem splitSlash_append_last :
    ∀ (l m : List Char) (qs : List (List Char)) (q : List Char),
      (∀ c ∈ m, c ≠ '/') → splitSlash l = qs ++ [q] →
      splitSlash (l ++ m) = qs ++ [q ++ m] := by
  intro l
  induction l with
  | nil =>
    intro m qs q hm hsp
    have h1 : ([] : List (List Char)) ++ [[]] = qs ++ [q] := hsp
    obtain ⟨hqs, hq⟩ := concat_inj h1
    subst hqs
    subst hq
    simpa using splitSlash_no_slash hm
  | cons c r ih =>
    intro m qs q hm hsp
    obtain ⟨qs0, q0, hr⟩ := splitSlash_decomp_last r
    by_cases hc : c = '/'
    · subst hc
      rw [splitSlash_cons_slash, hr] at hsp
      have hsp2 : ([] :: qs0) ++ [q0] = qs ++ [q] := hsp
      obtain ⟨hqs, hq⟩ := concat_inj hsp2
      show splitSlash ('/' :: (r ++ m)) = _
      rw [splitSlash_cons_slash, ih m qs0 q0 hm hr, ← hqs, ← hq]
      rfl
    · obtain ⟨p, ps, hr2⟩ := splitSlash_decomp r
      rw [splitSlash_cons_other hc _ hr2] at hsp
      show splitSlash (c :: (r ++ m)) = _
      cases qs with
      | nil =>
        simp only [List.nil_append] at hsp
        obtain ⟨hq, hps⟩ := List.cons.inj hsp
        subst hps
        have hrm := ih m [] p hm (by rw [hr2]; rfl)
        rw [splitSlash_cons_other hc _ (show splitSlash (r ++ m) = (p ++ m) :: [] by
          simpa using hrm)]
        rw [← hq]
        rfl
      | cons q1 qs1 =>
        simp only [List.cons_append] at hsp
        obtain ⟨hq1, hps⟩ := List.cons.inj hsp
        have hrm := ih m (p :: qs1) q hm (by rw [hr2, hps]; rfl)
        rw [List.cons_append] at hrm
        rw [splitSlash_cons_other hc _ hrm]
        rw [← hq1]
        rfl

/-! ### Whitespace affixes are invisible to `strip` and `int()` -/

theorem dropWhile_ws_append {w x : List Char} (hw : ∀ c ∈ w, isWsC c = true) :
    (w ++ x).dropWhile isWsC = x.dropWhile isWsC := by
  induction w with
  | nil => rfl
  | cons c r ih =>
    rw [List.cons_append, List.dropWhile_cons, if_pos (hw c (by simp))]
    exact ih (fun a ha => hw a (by simp [ha]))

theorem rdropWhile_append_ws {x w : List Char} (hw : ∀ c ∈ w, isWsC c = true) :
    (x ++ w).rdropWhile isWsC = x.rdropWhile isWsC := by
  simp only [List.rdropWhile]
  rw [List.reverse_append]
  rw [dropWhile_ws_append (fun c hc => hw c (List.mem_reverse.mp hc))]

theorem pyStripL_ws_affix {w1 a w2 : List Char} (hw1 : ∀ c ∈ w1, isWsC c = true)
    (hw2 : ∀ c ∈ w2, isWsC c = true) :
    pyStripL (w1 ++ a ++ w2) = pyStripL a := by
  unfold pyStripL
  rw [List.append_assoc, dropWhile_ws_append hw1]
  by_cases he : a.dropWhile isWsC = []
  · have ha : ∀ c ∈ a, isWsC c = true := List.dropWhile_eq_nil_iff.mp he
    have : (a ++ w2).dropWhile isWsC = [] := by
      rw [List.dropWhile_eq_nil_iff]
      intro c hc
      rcases List.mem_append.mp hc with h | h
      · exact ha c h
      · exact hw2 c h
    rw [this, he]
  · have hsplit : (a ++ w2).dropWhile isWsC = a.dropWhile isWsC ++ w2 := by
      rw [List.dropWhile_append]
      rw [if_neg (by simpa [List.isEmpty_iff] using he)]
    rw [hsplit, rdropWhile_append_ws hw2]

theorem pyIntL?_ws_affix {w1 a w2 : List Char} (hw1 : ∀ c ∈ w1, isWsC c = true)
    (hw2 : ∀ c ∈ w2, isWsC c = true) :
    pyIntL? (w1 ++ a ++ w2) = pyIntL? a := by
  unfold pyIntL?
  rw [pyStripL_ws_affix hw1 hw2]

theorem pyIntL?_ws_left {w1 a : List Char} (hw1 : ∀ c ∈ w1, isWsC c = true) :
    pyIntL? (w1 ++ a) = pyIntL? a := by
  have h := pyIntL?_ws_affix (a := a) hw1
    (show ∀ c ∈ ([] : List Char), isWsC c = true from
      fun c hc => absurd hc (List.not_mem_nil c))
  simpa using h

theorem pyIntL?_ws_right {a w2 : List Char} (hw2 : ∀ c ∈ w2, isWsC c = true) :
    pyIntL? (a ++ w2) = pyIntL? a := by
  have h := pyIntL?_ws_affix (a := a)
    (show ∀ c ∈ ([] : List Char), isWsC c = true from
      fun c hc => absurd hc (List.not_mem_nil c)) hw2
  simpa using h

theorem exists_strip_decomp (l : List Char) :
    ∃ w1 w2, (∀ c ∈ w1, isWsC c = true) ∧ (∀ c ∈ w2, isWsC c = true) ∧
      l = w1 ++ pyStripL l ++ w2 := by
  refine ⟨l.takeWhile isWsC, ((l.dropWhile isWsC).reverse.takeWhile isWsC).reverse, ?_, ?_, ?_⟩
  · intro c hc
    exact List.mem_takeWhile_imp hc
  · intro c hc
    exact List.mem_takeWhile_imp (List.mem_reverse.mp hc)
  · unfold pyStripL
    rw [List.append_assoc]
    conv_lhs => rw [← List.takeWhile_append_dropWhile isWsC l]
    congr 1
    set X := l.dropWhile isWsC
    simp only [List.rdropWhile]
    have : X = ((X.reverse.takeWhile isWsC) ++ (X.reverse.dropWhile isWsC)).reverse := by
      rw [List.takeWhile_append_dropWhile, List.reverse_reverse]
    conv_lhs => rw [this]
    rw [List.reverse_append]

/-! ### The slash normalizer `normalize_slash` (streamlit_ocr_test.py) -/

/-- The tuple unpacking `a, b = raw.split("/")`: succeeds exactly when the
split has two parts. -/
def slashParts? (l : List Char) : Option (List Char × List Char) :=
  match splitSlash l with
  | [a, b] => some (a, b)
  | _ => none

/-- The whole `try` body of `normalize_slash`: both sides parsed by `int()`. -/
def slashParse? (l : List Char) : Option (Int × Int) :=
  match slashParts? l with
  | some (a, b) =>
    match pyIntL? a, pyIntL? b with
    | some x, some y => some (x, y)
    | _, _ => none
  | none => none

/-- Model of `normalize_slash` of `src/streamlit_ocr_test.py`:
render `f"{int(a)}/{int(b)}"` on success, `raw.strip()` on any exception. -/
def normSlashL (l : List Char) : List Char :=
  match slashParse? l with
  | some (x, y) => intRender x ++ '/' :: intRender y
  | none => pyStripL l

/-- String-level `normalize_slash`. -/
def normalize_slash (raw : String) : String :=
  String.mk (normSlashL raw.data)

theorem slashParts?_of_split {l a b : List Char} (h : splitSlash l = [a, b]) :
    slashParts? l = some (a, b) := by
  unfold slashParts?
  rw [h]

theorem slashParts?_none_of_len {l : List Char} (h : (splitSlash l).length ≠ 2) :
    slashParts? l = none := by
  unfold slashParts?
  cases hs : splitSlash l with
  | nil => rfl
  | cons p ps =>
    cases ps with
    | nil => rfl
    | cons b rest =>
      cases rest with
      | nil => exact absurd (by rw [hs]; rfl) h
      | cons x xs => rfl

theorem slashParse?_parts {l a b : List Char} (h : slashParts? l = some (a, b)) :
    slashParse? l =
      match pyIntL? a, pyIntL? b with
      | some x, some y => some (x, y)
      | _, _ => none := by
  unfold slashParse?
  rw [h]

theorem slashParse?_none_parts {l : List Char} (h : slashParts? l = none) :
    slashParse? l = none := by
  unfold slashParse?
  rw [h]

theorem normSlashL_some {l : List Char} {x y : Int} (h : slashParse? l = some (x, y)) :
    normSlashL l = intRender x ++ '/' :: intRender y := by
  unfold normSlashL
  rw [h]

theorem normSlashL_none {l : List Char} (h : slashParse? l = none) :
    normSlashL l = pyStripL l := by
  unfold normSlashL
  rw [h]

theorem splitSlash_length_left {l m : List Char} (h : ∀ c ∈ l, c ≠ '/') :
    (splitSlash (l ++ m)).length = (splitSlash m).length := by
  obtain ⟨p, ps, hm⟩ := splitSlash_decomp m
  rw [splitSlash_append h hm, hm]
  simp

theorem splitSlash_length_right {l m : List Char} (h : ∀ c ∈ m, c ≠ '/') :
    (splitSlash (l ++ m)).length = (splitSlash l).length := by
  obtain ⟨qs, q, hl⟩ := splitSlash_decomp_last l
  rw [splitSlash_append_last l m qs q h hl, hl]
  simp

theorem slashParse?_affix {w1 s w2 : List Char} (hw1 : ∀ c ∈ w1, isWsC c = true)
    (hw2 : ∀ c ∈ w2, isWsC c = true) :
    slashParse? (w1 ++ s ++ w2) = slashParse? s := by
  have hw1ns : ∀ c ∈ w1, c ≠ '/' := fun c hc => wsC_ne_slash (hw1 c hc)
  have hw2ns : ∀ c ∈ w2, c ≠ '/' := fun c hc => wsC_ne_slash (hw2 c hc)
  obtain ⟨p, ps, hs⟩ := splitSlash_decomp s
  cases ps with
  | nil =>
    have h1 : (splitSlash (w1 ++ s ++ w2)).length = 1 := by
      rw [List.append_assoc, splitSlash_length_left hw1ns, splitSlash_length_right hw2ns, hs]
      rfl
    have ha : slashParse? s = none :=
      slashParse?_none_parts (slashParts?_none_of_len (l := s) (by rw [hs]; simp))
    have hb : slashParse? (w1 ++ s ++ w2) = none :=
      slashParse?_none_parts (slashParts?_none_of_len (l := w1 ++ s ++ w2) (by rw [h1]; omega))
    rw [ha, hb]
  | cons b rest =>
    cases rest with
    | nil =>
      have hsw2 : splitSlash (s ++ w2) = [p, b ++ w2] :=
        splitSlash_append_last s w2 [p] b hw2ns (by rw [hs]; rfl)
      have hfull : splitSlash (w1 ++ s ++ w2) = [w1 ++ p, b ++ w2] := by
        rw [List.append_assoc]
        exact splitSlash_append hw1ns hsw2
      rw [slashParse?_parts (slashParts?_of_split hfull),
        slashParse?_parts (slashParts?_of_split hs)]
      rw [pyIntL?_ws_left hw1, pyIntL?_ws_right hw2]
    | cons c2 rest2 =>
      have h1 : (splitSlash (w1 ++ s ++ w2)).length = (splitSlash s).length := by
        rw [List.append_assoc, splitSlash_length_left hw1ns, splitSlash_length_right hw2ns]
      have ha : slashParse? s = none :=
        slashParse?_none_parts (slashParts?_none_of_len (l := s) (by
          rw [hs]; simp only [List.length_cons]; omega))
      have hb : slashParse? (w1 ++ s ++ w2) = none :=
        slashParse?_none_parts (slashParts?_none_of_len (l := w1 ++ s ++ w2) (by
          rw [h1, hs]; simp only [List.length_cons]; omega))
      rw [ha, hb]

theorem slashParse?_strip (l : List Char) : slashParse? (pyStripL l) = slashParse? l := by
  obtain ⟨w1, w2, hw1, hw2, hl⟩ := exists_strip_decomp l
  conv_rhs => rw [hl]
  rw [slashParse?_affix hw1 hw2]

theorem intRender_no_slash (i : Int) : ∀ c ∈ intRender i, c ≠ '/' := by
  unfold intRender
  split
  · intro c hc
    rcases List.mem_cons.mp hc with h | h
    · subst h; decide
    · exact digitC_ne_slash (natRender_all_digits _ _ h)
  · intro c hc
    exact digitC_ne_slash (natRender_all_digits _ _ hc)

theorem intRender_no_ws (i : Int) : ∀ c ∈ intRender i, isWsC c = false := by
  unfold intRender
  split
  · intro c hc
    rcases List.mem_cons.mp hc with h | h
    · subst h; decide
    · exact natRender_no_ws _ _ h
  · intro c hc
    exact natRender_no_ws _ _ hc

theorem splitSlash_render {x y : Int} :
    splitSlash (intRender x ++ '/' :: intRender y) = [intRender x, intRender y] := by
  have h1 : splitSlash ('/' :: intRender y) = [] :: [intRender y] := by
    rw [splitSlash_cons_slash, splitSlash_no_slash (intRender_no_slash y)]
  have h2 := splitSlash_append (intRender_no_slash x) h1
  rw [h2]
  simp

theorem slashParse?_render {x y : Int} :
    slashParse? (intRender x ++ '/' :: intRender y) = some (x, y) := by
  rw [slashParse?_parts (slashParts?_of_split splitSlash_render)]
  rw [pyIntL?_intRender, pyIntL?_intRender]

theorem normSlashL_idem (l : List Char) : normSlashL (normSlashL l) = normSlashL l := by
  cases hp : slashParse? l with
  | none =>
    rw [normSlashL_none hp, normSlashL_none (by rw [slashParse?_strip, hp]), pyStripL_idem]
  | some xy =>
    obtain ⟨x, y⟩ := xy
    rw [normSlashL_some hp, normSlashL_some slashParse?_render]

/-! ### The promo normalizer `normalize_promo` (streamlit_ocr_test.py) -/

/-- Characters kept by `re.sub(r"[\s\-]", "", ...)`. -/
def promoKeep (c : Char) : Bool := !(isWsC c || c = '-')

/-- Model of `normalize_promo` of `src/streamlit_ocr_test.py`:
strip, remove whitespace and hyphens, upper-case. -/
def normPromoL (l : List Char) : List Char :=
  ((pyStripL l).filter promoKeep).map upChar

/-- String-level `normalize_promo`. -/
def normalize_promo (raw : String) : String :=
  String.mk (normPromoL raw.data)

theorem upChar_eq_hyphen_decide (c : Char) : decide (upChar c = '-') = decide (c = '-') := by
  rw [decide_eq_decide]
  have h45 : ('-' : Char).toNat = 45 := by decide
  rw [charEq_iff_toNat, charEq_iff_toNat, upChar_toNat, h45]
  split <;> omega

theorem promoKeep_upChar (c : Char) : promoKeep (upChar c) = promoKeep c := by
  unfold promoKeep
  rw [isWsC_upChar, upChar_eq_hyphen_decide]

theorem promoKeep_no_ws {c : Char} (h : promoKeep c = true) : isWsC c = false := by
  unfold promoKeep at h
  simp only [Bool.not_eq_true', Bool.or_eq_false_iff] at h
  exact h.1

theorem normPromoL_idem (l : List Char) : normPromoL (normPromoL l) = normPromoL l := by
  unfold normPromoL
  set s := pyStripL l with hs
  have h1 : pyStripL ((s.filter promoKeep).map upChar) = (s.filter promoKeep).map upChar := by
    apply pyStripL_of_no_ws
    intro c hc
    obtain ⟨a, ha, rfl⟩ := List.mem_map.mp hc
    rw [isWsC_upChar]
    exact promoKeep_no_ws (List.of_mem_filter ha)
  rw [h1, List.filter_map]
  have h2 : (s.filter promoKeep).filter (promoKeep ∘ upChar) = s.filter promoKeep := by
    rw [List.filter_congr (fun x _ => by
      show (promoKeep ∘ upChar) x = promoKeep x
      exact promoKeep_upChar x)]
    rw [List.filter_filter]
    apply List.filter_congr
    intro x _
    cases h : promoKeep x <;> simp [h]
  rw [h2, List.map_map]
  apply List.map_congr_left
  intro a _
  exact upChar_upChar a

/-! ### Token extraction: the `SLASH_RE` search (streamlit_ocr_test.py) -/

/-- Python `str.startswith("0")` on the character-list level. -/
def startsWith0 : List Char → Bool
  | [] => false
  | c :: _ => c = '0'

/-- Word-boundary condition before a word character, given the preceding
character (`none` at the start of the text). -/
def boundaryOK : Option Char → Bool
  | none => true
  | some p => !isWordC p

/-- Attempt of `SLASH_RE` = `\b(\d{1,4}\s*/\s*\d{1,4})\b` at one position
(the leading `\b` is checked by the caller).  Greedy matching is
deterministic here: a digit run longer than four fails outright, and the
trailing `\b` forces the second digit run to end at a non-word character. -/
def slashMatchAt (l : List Char) : Option (List Char) :=
  let s1 := List.span isDigitC l
  let d1 := s1.1
  if d1.length < 1 ∨ 4 < d1.length then none else
  let s2 := List.span isWsC s1.2
  let w1 := s2.1
  match s2.2 with
  | [] => none
  | c :: r3 =>
    if c = '/' then
      let s3 := List.span isWsC r3
      let w2 := s3.1
      let s4 := List.span isDigitC s3.2
      let d2 := s4.1
      if d2.length < 1 ∨ 4 < d2.length then none else
      match s4.2 with
      | [] => some (d1 ++ w1 ++ '/' :: (w2 ++ d2))
      | c2 :: _ =>
        if isWordC c2 then none else some (d1 ++ w1 ++ '/' :: (w2 ++ d2))
    else none

/-- Leftmost search of `SLASH_RE`, carrying the previous character for the
word-boundary test. -/
def slashSearch : Option Char → List Char → Option (List Char)
  | _, [] => none
  | prev, c :: r =>
    match (if boundaryOK prev then slashMatchAt (c :: r) else none) with
    | some g => some g
    | none => slashSearch (some c) r

/-- Model of `parse_slash_number`: search `SLASH_RE`, then remove the
spaces (only U+0020) from the matched group. -/
def parse_slash_number (text : String) : Option String :=
  (slashSearch none text.data).map (fun g => String.mk (g.filter (fun c => !(c = ' '))))

/-! ### Token extraction: the `PROMO_RE` search (streamlit_ocr_test.py) -/

/-- The alternation `(SVP|SWSH|SM|XY|BW|DP|HGSS|POP)` of `PROMO_RE`, in
source order.  No literal is a prefix of another, so at any position at
most one of them can match. -/
def PROMO_PATS : List (List Char) :=
  [['S', 'V', 'P'], ['S', 'W', 'S', 'H'], ['S', 'M'], ['X', 'Y'],
   ['B', 'W'], ['D', 'P'], ['H', 'G', 'S', 'S'], ['P', 'O', 'P']]

/-- Case-insensitive literal match: returns the rest of the input on
success.  The pattern is given upper-case. -/
def matchLitCI : List Char → List Char → Option (List Char)
  | [], l => some l
  | _ :: _, [] => none
  | p :: ps, c :: cs => if upChar c = p then matchLitCI ps cs else none

/-- First alternative of the alternation matching at this position. -/
def promoAltMatch : List (List Char) → List Char → Option (List Char × List Char)
  | [], _ => none
  | p :: ps, l =>
    match matchLitCI p l with
    | some rest => some (p, rest)
    | none => promoAltMatch ps l

/-- Attempt of `PROMO_RE` = `\b(SVP|SWSH|SM|XY|BW|DP|HGSS|POP)\s*-?\s*(\d{1,4})\b`
at one position; returns the upper-cased alternative and the digit group. -/
def promoMatchAt (l : List Char) : Option (List Char × List Char) :=
  match promoAltMatch PROMO_PATS l with
  | none => none
  | some (p, r1) =>
    let s1 := List.span isWsC r1
    let r2 := match s1.2 with
      | c :: rr => if c = '-' then rr else c :: rr
      | [] => []
    let s2 := List.span isWsC r2
    let s3 := List.span isDigitC s2.2
    let d := s3.1
    if d.length < 1 ∨ 4 < d.length then none else
    match s3.2 with
    | [] => some (p, d)
    | c2 :: _ => if isWordC c2 then none else some (p, d)

/-- Leftmost search of `PROMO_RE`. -/
def promoSearch : Option Char → List Char → Option (List Char × List Char)
  | _, [] => none
  | prev, c :: r =>
    match (if boundaryOK prev then promoMatchAt (c :: r) else none) with
    | some g => some g
    | none => promoSearch (some c) r

/-! ### Token extraction: the `WOTC_PROMO_NUM_RE` search -/

/-- The `\b(\d{1,3})\b` tail of `WOTC_PROMO_NUM_RE` at one position, with
the preceding character for the leading boundary. -/
def wotcDigitsAt (prev : Option Char) (l : List Char) : Option (List Char) :=
  if !boundaryOK prev then none else
  let s := List.span isDigitC l
  let d := s.1
  if d.length < 1 ∨ 3 < d.length then none else
  match s.2 with
  | [] => some d
  | c :: _ => if isWordC c then none else some d

/-- The lazy gap `[\s\S]{0,140}?` of `WOTC_PROMO_NUM_RE`: try the digit
group at the current position, else consume one more gap character (the
fuel counts the remaining gap budget). -/
def wotcWindow : Nat → Option Char → List Char → Option (List Char)
  | 0, prev, l => wotcDigitsAt prev l
  | f + 1, prev, l =>
    match wotcDigitsAt prev l with
    | some d => some d
    | none =>
      match l with
      | [] => none
      | c :: r => wotcWindow f (some c) r

/-- Attempt of `WOTC_PROMO_NUM_RE` = `\bPROMO\b[\s\S]{0,140}?\b(\d{1,3})\b`
at one position: literal `PROMO` (case-insensitive), trailing boundary,
then the windowed digit search. -/
def wotcMatchAt (l : List Char) : Option (List Char) :=
  match matchLitCI ['P', 'R', 'O', 'M', 'O'] l with
  | none => none
  | some r =>
    match r with
    | [] => none
    | c :: _ => if isWordC c then none else wotcWindow 140 (some 'O') r

/-- Leftmost search of `WOTC_PROMO_NUM_RE`. -/
def wotcSearch : Option Char → List Char → Option (List Char)
  | _, [] => none
  | prev, c :: r =>
    match (if boundaryOK prev then wotcMatchAt (c :: r) else none) with
    | some d => some d
    | none => wotcSearch (some c) r

/-- Model of `parse_promo_number` of `src/streamlit_ocr_test.py`:
first `PROMO_RE` (rendering `f"{prefix}{int(num):0{width}d}"` with
`width = len(num)` when the digit group has a leading zero, else
`f"{prefix}{int(num)}"`), then `WOTC_PROMO_NUM_RE` (rendering
`str(int(group))`). -/
def parse_promo_number (text : String) : Option String :=
  match promoSearch none text.data with
  | some (p, num) =>
    some (String.mk (p ++
      (if startsWith0 num then padRender (digitsVal num) num.length
       else natRender (digitsVal num))))
  | none =>
    match wotcSearch none text.data with
    | some d => some (String.mk (natRender (digitsVal d)))
    | none => none

/-! ### The backfill normalizer `norm_ext_number` (scripts/backfill_ext_number.py) -/

/-- Full anchored match of the backfill pattern
`SLASH_RE = ^\s*(\d{1,4})\s*/\s*(\d{1,4})\s*$`; returns the two digit
groups.  Deterministic for the same disjointness reasons as above. -/
def matchSlashFull (l : List Char) : Option (List Char × List Char) :=
  let s1 := List.span isWsC l
  let s2 := List.span isDigitC s1.2
  let d1 := s2.1
  if d1.length < 1 ∨ 4 < d1.length then none else
  let s3 := List.span isWsC s2.2
  match s3.2 with
  | [] => none
  | c :: r4 =>
    if c = '/' then
      let s4 := List.span isWsC r4
      let s5 := List.span isDigitC s4.2
      let d2 := s5.1
      if d2.length < 1 ∨ 4 < d2.length then none else
      let s6 := List.span isWsC s5.2
      if s6.2 = [] then some (d1, d2) else none
    else none

/-- The `\s*(\d{1,4})\s*$` tail of the backfill pattern `PROMO_ALPHA_RE`,
after the letter group `p` and the optional hyphen have been consumed. -/
def promoAlphaTail (p r4 : List Char) : Option (List Char × List Char) :=
  let s4 := List.span isWsC r4
  let s5 := List.span isDigitC s4.2
  let d := s5.1
  if d.length < 1 ∨ 4 < d.length then none else
  let s6 := List.span isWsC s5.2
  if s6.2 = [] then some (p, d) else none

/-- Full anchored match of the backfill pattern
`PROMO_ALPHA_RE = ^\s*([A-Z]{2,6})\s*-?\s*(\d{1,4})\s*$` (case-insensitive);
returns the letter group (as written) and the digit group. -/
def matchPromoAlphaFull (l : List Char) : Option (List Char × List Char) :=
  let s1 := List.span isWsC l
  let s2 := List.span isAlphaC s1.2
  let p := s2.1
  if p.length < 2 ∨ 6 < p.length then none else
  let s3 := List.span isWsC s2.2
  let r4 := match s3.2 with
    | c :: rr => if c = '-' then rr else c :: rr
    | [] => []
  promoAlphaTail p r4

/-- Model of `norm_ext_number` of `src/scripts/backfill_ext_number.py`.
The branches, in source order: strip and return early on empty; the
anchored slash form; the promo/alphanumeric form matched against the raw
with spaces removed, rendered with the width heuristic
`width = max(2, min(4, len(tail)))` on a leading zero; the pure-numeric
form; the fallback (strip whitespace and hyphens, upper-case). -/
def normExtL (raw0 : List Char) : List Char :=
  let raw := pyStripL raw0
  if raw = [] then raw else
  match matchSlashFull raw with
  | some (a, b) => natRender (digitsVal a) ++ '/' :: natRender (digitsVal b)
  | none =>
    match matchPromoAlphaFull (raw.filter (fun c => !(c = ' '))) with
    | some (p, num) =>
      let tl := raw.filter isDigitC
      let width := max 2 (min 4 tl.length)
      (p.map upChar) ++
        (if startsWith0 tl then padRender (digitsVal num) width
         else natRender (digitsVal num))
    | none =>
      let digits := raw.filter isDigitC
      if digits ≠ [] ∧ digits = raw then natRender (digitsVal digits)
      else (raw.filter promoKeep).map upChar

/-- String-level `norm_ext_number`. -/
def norm_ext_number (raw : String) : String :=
  String.mk (normExtL raw.data)

/-! ### The ingestion normalizer `normalize_collector_number`
(scripts/ingest_products.py) -/

/-- Model of `_normalize_num_part`: strip and upper-case, then the anchored
`^([A-Z]+)(\d+)$` form rendered as `f"{prefix}{int(digits)}"`, then
`str.isdigit` rendered as `str(int(part))`, else unchanged. -/
def normalize_num_part (part0 : List Char) : List Char :=
  let part := (pyStripL part0).map upChar
  let s1 := List.span isUpperC part
  let s2 := List.span isDigitC s1.2
  if s1.1 ≠ [] ∧ s2.1 ≠ [] ∧ s2.2 = [] then s1.1 ++ natRender (digitsVal s2.1)
  else if part ≠ [] ∧ part.all isDigitC then natRender (digitsVal part)
  else part

/-- Model of `normalize_collector_number` of `src/scripts/ingest_products.py`
on a non-null raw value: strip, upper-case, remove all whitespace; if a
slash is present split at the first one and normalize both parts, else
normalize the whole. -/
def normCollectorL (raw : List Char) : List Char :=
  let s := ((pyStripL raw).map upChar).filter (fun c => !isWsC c)
  if s.contains '/' then
    normalize_num_part (s.takeWhile (fun c => !(c = '/'))) ++
      '/' :: normalize_num_part ((s.dropWhile (fun c => !(c = '/'))).tail)
  else normalize_num_part s

/-- String-level `normalize_collector_number`. -/
def normalize_collector_number (raw : String) : String :=
  String.mk (normCollectorL raw.data)

/-! ### Name extraction `extract_pokemon_name` (streamlit_ocr_test.py) -/

/-- Literal list match at the head (case-sensitive). -/
def startsWithL : List Char → List Char → Bool
  | [], _ => true
  | _ :: _, [] => false
  | p :: ps, c :: cs => p = c && startsWithL ps cs

/-- Python substring containment `pat in l` (contiguous). -/
def containsSeq (pat : List Char) : List Char → Bool
  | [] => pat.isEmpty
  | c :: r => startsWithL pat (c :: r) || containsSeq pat r

/-- Model of Python `str.splitlines` (LF, CRLF, CR). -/
def splitLinesAux : List Char → List Char → List (List Char)
  | [], acc => if acc = [] then [] else [acc.reverse]
  | c :: r, acc =>
    if c = '\n' then acc.reverse :: splitLinesAux r []
    else if c = '\r' then
      match r with
      | [] => [acc.reverse]
      | c2 :: r2 =>
        if c2 = '\n' then acc.reverse :: splitLinesAux r2 []
        else acc.reverse :: splitLinesAux (c2 :: r2) []
    else splitLinesAux r (c :: acc)

def splitLinesPy (l : List Char) : List (List Char) := splitLinesAux l []

/-- Model of `re.sub(r"\s+", " ", s)`: each maximal whitespace run becomes
one space.  The flag records that the previous character was whitespace. -/
def collapseWsF : List Char → Bool → List Char
  | [], _ => []
  | c :: r, b =>
    if isWsC c then (if b then collapseWsF r true else ' ' :: collapseWsF r true)
    else c :: collapseWsF r false

def collapseWs (l : List Char) : List Char := collapseWsF l false

/-- Model of Python no-argument `str.split()`: split on whitespace runs,
dropping empty pieces.  The accumulator holds the current token reversed. -/
def splitWsAux : List Char → List Char → List (List Char)
  | [], acc => if acc = [] then [] else [acc.reverse]
  | c :: r, acc =>
    if isWsC c then
      (if acc = [] then splitWsAux r [] else acc.reverse :: splitWsAux r [])
    else splitWsAux r (c :: acc)

def splitWsL (l : List Char) : List (List Char) := splitWsAux l []

/-- Model of `" ".join(ts)`. -/
def joinSpace : List (List Char) → List Char
  | [] => []
  | [t] => t
  | t :: ts => t ++ ' ' :: joinSpace ts

/-- The `STOPWORDS` set of `src/streamlit_ocr_test.py`. -/
def STOPWORDS : List String :=
  ["basic", "stage", "pokemon", "pokémon", "trainer", "energy",
   "hp", "weakness", "resistance", "retreat", "rule", "illus",
   "illustration", "attack", "attacks", "ability", "abilities"]

/-- The `CARD_SUFFIXES` set of `src/streamlit_ocr_test.py`. -/
def CARD_SUFFIXES : List String :=
  ["gx", "ex", "v", "vmax", "vstar", "lv", "lvl", "tag", "team",
   "break", "prime", "δ", "delta", "radiant"]

/-- The boilerplate substrings rejected line-wise. -/
def BOILER : List String := ["weakness", "resistance", "retreat", "illus", "rule"]

/-- The character class kept by `re.sub(r"[^A-Za-z0-9'’\-\s&]", " ", ln)`. -/
def isNameChar (c : Char) : Bool :=
  isAlphaC c || isDigitC c || c = '\'' || c = '’' || c = '-' || isWsC c || c = '&'

/-- The lower-cased form of a token, as a string. -/
def lowStr (t : List Char) : String := String.mk (t.map lowChar)

/-- The body of the per-line loop of `extract_pokemon_name`: `none` models
`continue`, `some name` models `return name`. -/
def lineName (ln : List Char) : Option (List Char) :=
  let low := ln.map lowChar
  if BOILER.any (fun w => containsSeq w.data low) then none else
  if (ln.filter isAlphaC).length < 4 then none else
  let cleaned := pyStripL (collapseWs (ln.map (fun c => if isNameChar c then c else ' ')))
  let kept := (splitWsL cleaned).filter (fun t =>
    !(STOPWORDS.contains (lowStr t) || CARD_SUFFIXES.contains (lowStr t) ||
      t.map lowChar = ['&']))
  if kept = [] then none else
  let name := pyStripL (joinSpace kept)
  if STOPWORDS.contains (lowStr name) then none else
  if name.length < 3 ∨ 30 < name.length then none else
  some name

/-- Model of `extract_pokemon_name` of `src/streamlit_ocr_test.py`:
empty text yields nothing; otherwise scan the stripped non-empty lines,
`lines[:30] + lines[30:60]`, and return the first surviving line's name. -/
def extract_pokemon_name (text : String) : Option String :=
  if text = "" then none else
  let lines := ((splitLinesPy text.data).map pyStripL).filter (fun ln => !(ln = []))
  let cand := lines.take 30 ++ (lines.drop 30).take 30
  (cand.findSome? lineName).map String.mk

/-! ### Catalog rows, candidate resolution, name filtering, summarization -/

/-- The lookup strategy reported by `query_candidates_by_number`.  In the
source the two values are the strings `"collector_number_norm"` and
`"ext_number_norm"` (the spec calls them "collector_number" and
"promo_number"); here they are the two constructors. -/
inductive Strategy where
  | collector_number : Strategy
  | promo_number : Strategy
deriving DecidableEq, Repr

/-- One row of the `cards LEFT JOIN prices_latest` result set used by the
resolver.  `product_name`, the normalized columns and `sub_type` are
nullable in the store; `market_price` and timestamps are carried by the
real rows but never inspected by the logic under verification, so they
are omitted. -/
structure Row where
  product_id : Int
  group_id : Int
  product_name : Option String
  collector_number_norm : Option String
  ext_number_norm : Option String
  sub_type : Option String
deriving DecidableEq, Repr

/-- Python truthiness of an optional string (`if collector_norm:`). -/
def truthyS : Option String → Bool
  | none => false
  | some s => !(s = "")

/-- SQL ordering on nullable strings (NULLs first). -/
def optStrLE : Option String → Option String → Bool
  | none, _ => true
  | some _, none => false
  | some a, some b => a ≤ b

/-- The `ORDER BY c.group_id, c.product_name, p.sub_type` comparison
(also the `sort_values(["group_id", "product_name", "sub_type"])` key of
`summarize_variants`). -/
def rowLE (a b : Row) : Bool :=
  if a.group_id = b.group_id then
    (if a.product_name = b.product_name then optStrLE a.sub_type b.sub_type
     else optStrLE a.product_name b.product_name)
  else decide (a.group_id ≤ b.group_id)

def sortRows (rows : List Row) : List Row := rows.mergeSort rowLE

/-- Model of `query_candidates_by_number` of `src/streamlit_ocr_test.py`:
if the collector key is truthy, query `WHERE collector_number_norm = ?`;
otherwise if the promo key is truthy, query `WHERE ext_number_norm = ?`;
otherwise no strategy and an empty frame.  The catalog is the joined
relation `db`. -/
def query_candidates_by_number (db : List Row) (collector_norm promo_norm : Option String) :
    Option Strategy × List Row :=
  if truthyS collector_norm then
    (some Strategy.collector_number,
      sortRows (db.filter (fun r => r.collector_number_norm == collector_norm)))
  else if truthyS promo_norm then
    (some Strategy.promo_number,
      sortRows (db.filter (fun r => r.ext_number_norm == promo_norm)))
  else (none, [])

/-- The per-row mask of `filter_candidates_by_pokemon_name`:
`df["product_name"].str.lower().str.contains(re.escape(needle), na=False)`
(a null name never matches). -/
def rowNameMatches (needle : List Char) (r : Row) : Bool :=
  match r.product_name with
  | some pn => containsSeq needle (pn.data.map lowChar)
  | none => false

/-- Model of `filter_candidates_by_pokemon_name` of
`src/streamlit_ocr_test.py`, with `needle = pokemon_name.strip().lower()`. -/
def filter_candidates_by_pokemon_name (rows : List Row) (pokemon_name : Option String) :
    List Row × Bool :=
  match pokemon_name with
  | none => (rows, false)
  | some nm =>
    if rows.isEmpty ∨ nm = "" then (rows, false)
    else
      let needle := (pyStripL nm.data).map lowChar
      if needle = [] then (rows, false)
      else
        let filtered := rows.filter (rowNameMatches needle)
        if filtered.isEmpty then (rows, false) else (filtered, true)

/-- Two concrete catalog rows (one product in two printings, plus a second
product) used to exercise the resolver, the name filter and the
summarizer on closed inputs. -/
def rowHolo : Row :=
  { product_id := 101, group_id := 5, product_name := some "Snorlax GX",
    collector_number_norm := some "59/131", ext_number_norm := none,
    sub_type := some "Holofoil" }

def rowReverse : Row :=
  { product_id := 101, group_id := 5, product_name := some "Snorlax GX",
    collector_number_norm := some "59/131", ext_number_norm := none,
    sub_type := some "Reverse Holofoil" }

def rowOther : Row :=
  { product_id := 202, group_id := 7, product_name := some "Infernape",
    collector_number_norm := some "33/130", ext_number_norm := some "SM55",
    sub_type := some "Normal" }

/-- The dedup key `(product_id, sub_type)` of `summarize_variants`. -/
def rowKey (r : Row) : Int × Option String := (r.product_id, r.sub_type)

/-- `drop_duplicates(subset=["product_id", "sub_type"])`, keeping the first
occurrence. -/
def dedupByKey : List (Int × Option String) → List Row → List Row
  | _, [] => []
  | seen, r :: rs =>
    if seen.contains (rowKey r) then dedupByKey seen rs
    else r :: dedupByKey (rowKey r :: seen) rs

/-- The result record of `summarize_variants`. -/
structure VariantSummary where
  has_variations : Bool
  variant_product_count : Nat
  variant_subtype_count : Nat
  options : List Row
deriving DecidableEq, Repr

/-- Model of `summarize_variants` of `src/streamlit_ocr_test.py`: on a
non-empty frame, sort, deduplicate on `(product_id, sub_type)`, count
distinct product ids (`nunique`) and distinct non-null sub-variant labels
(`nunique` drops nulls), and flag variations when either count exceeds
one. -/
def summarize_variants (rows : List Row) : VariantSummary :=
  if rows.isEmpty then
    { has_variations := false, variant_product_count := 0,
      variant_subtype_count := 0, options := [] }
  else
    let opt := dedupByKey [] (sortRows rows)
    let product_ct := ((opt.map fun r => r.product_id).dedup).length
    let subtype_ct := ((opt.filterMap fun r => r.sub_type).dedup).length
    { has_variations := decide (1 < product_ct) || decide (1 < subtype_ct),
      variant_product_count := product_ct,
      variant_subtype_count := subtype_ct,
      options := opt }

/-! ### The `Run Google OCR` handler (streamlit_ocr_test.py, try/except) -/

/-- A persisted `ocr_runs` row (the fields the claims are about). -/
structure OcrRunRec where
  status : String
  elapsed_ms : Nat
  error_message : Option String
deriving DecidableEq, Repr

/-- A persisted `ocr_results` row (the fields the claims are about). -/
structure OcrResultRec where
  full_text : String
  match_strategy : Option Strategy
  match_count : Nat
deriving DecidableEq, Repr

/-- What the handler leaves behind: the error banner (if any) and the rows
appended to the two tables. -/
structure HandlerOut where
  displayed_error : Option String
  runs : List OcrRunRec
  results : List OcrResultRec
deriving DecidableEq, Repr

/-- Python `msg[:800] + "..." if len(msg) > 800 else msg`. -/
def truncateMsg (e : String) : String :=
  if 800 < e.data.length then String.mk (e.data.take 800) ++ "..." else e

/-- Model of the `Run Google OCR` button handler of
`src/streamlit_ocr_test.py` (the `try`/`except` around OCR, matching and
persistence).  `ocr` is the collaborator call `google_vision_ocr`;
`downstream` abstracts everything the `try` block does after the text is
obtained (parsing, catalog query, filtering), any of which may raise.  On
success a run row (status `"success"`) and a result row carrying the full
text are persisted when `persist` holds; on an exception the handler
displays the error and persists only a run row (status `"error"`) with
the elapsed time — the extracted text is not recorded anywhere. -/
def run_ocr_handler (persist dbExists : Bool) (elapsed_ms : Nat)
    (ocr : Except String String)
    (downstream : String → Except String (Option Strategy × List Row)) : HandlerOut :=
  match ocr with
  | Except.error e =>
    { displayed_error := some ("OCR failed: " ++ truncateMsg e),
      runs := if persist && dbExists then
          [{ status := "error", elapsed_ms := elapsed_ms,
             error_message := some (truncateMsg e) }]
        else [],
      results := [] }
  | Except.ok text =>
    match downstream text with
    | Except.error e =>
      { displayed_error := some ("OCR failed: " ++ truncateMsg e),
        runs := if persist && dbExists then
            [{ status := "error", elapsed_ms := elapsed_ms,
               error_message := some (truncateMsg e) }]
          else [],
        results := [] }
    | Except.ok (strategy, df) =>
      { displayed_error := none,
        runs := if persist then
            [{ status := "success", elapsed_ms := elapsed_ms, error_message := none }]
          else [],
        results := if persist then
            [{ full_text := text, match_strategy := strategy, match_count := df.length }]
          else [] }

/-! ### Span and class helper lemmas for the matchers -/

theorem span_eq_pair (p : Char → Bool) (l : List Char) :
    List.span p l = (l.takeWhile p, l.dropWhile p) :=
  List.span_eq_take_drop p l

theorem span_all {p : Char → Bool} {l : List Char} (h : ∀ c ∈ l, p c = true) :
    List.span p l = (l, []) := by
  rw [span_eq_pair]
  rw [List.takeWhile_eq_self_iff.mpr h, List.dropWhile_eq_nil_iff.mpr h]

theorem span_none {p : Char → Bool} {l : List Char} (h : ∀ c, l.head? = some c → p c = false) :
    List.span p l = ([], l) := by
  rw [span_eq_pair]
  cases l with
  | nil => rfl
  | cons c r =>
    have hc : p c = false := h c rfl
    rw [List.takeWhile_cons, List.dropWhile_cons]
    simp [hc]

theorem takeWhile_append_exact {p : Char → Bool} {xs ys : List Char}
    (hxs : ∀ c ∈ xs, p c = true) (hys : ∀ c, ys.head? = some c → p c = false) :
    (xs ++ ys).takeWhile p = xs := by
  induction xs with
  | nil =>
    cases ys with
    | nil => rfl
    | cons c r =>
      have hc : p c = false := hys c rfl
      simp [List.takeWhile_cons, hc]
  | cons c r ih =>
    have hc : p c = true := hxs c (by simp)
    rw [List.cons_append, List.takeWhile_cons, if_pos hc, ih (fun x hx => hxs x (by simp [hx]))]

theorem dropWhile_append_exact {p : Char → Bool} {xs ys : List Char}
    (hxs : ∀ c ∈ xs, p c = true) (hys : ∀ c, ys.head? = some c → p c = false) :
    (xs ++ ys).dropWhile p = ys := by
  induction xs with
  | nil =>
    cases ys with
    | nil => rfl
    | cons c r =>
      have hc : p c = false := hys c rfl
      simp [List.dropWhile_cons, hc]
  | cons c r ih =>
    have hc : p c = true := hxs c (by simp)
    rw [List.cons_append, List.dropWhile_cons, if_pos hc, ih (fun x hx => hxs x (by simp [hx]))]

theorem span_append_exact {p : Char → Bool} {xs ys : List Char}
    (hxs : ∀ c ∈ xs, p c = true) (hys : ∀ c, ys.head? = some c → p c = false) :
    List.span p (xs ++ ys) = (xs, ys) := by
  rw [span_eq_pair, takeWhile_append_exact hxs hys, dropWhile_append_exact hxs hys]

theorem takeWhile_map_pred {p : Char → Bool} {f : Char → Char} {l : List Char}
    (hf : ∀ c, p (f c) = p c) : (l.map f).takeWhile p = (l.takeWhile p).map f := by
  induction l with
  | nil => rfl
  | cons c r ih =>
    rw [List.map_cons, List.takeWhile_cons, List.takeWhile_cons, hf c]
    cases h : p c <;> simp [ih]

theorem dropWhile_map_pred {p : Char → Bool} {f : Char → Char} {l : List Char}
    (hf : ∀ c, p (f c) = p c) : (l.map f).dropWhile p = (l.dropWhile p).map f := by
  induction l with
  | nil => rfl
  | cons c r ih =>
    rw [List.map_cons, List.dropWhile_cons, List.dropWhile_cons, hf c]
    cases h : p c <;> simp [ih]

theorem span_map_pred {p : Char → Bool} {f : Char → Char} {l : List Char}
    (hf : ∀ c, p (f c) = p c) :
    List.span p (l.map f) = ((l.takeWhile p).map f, (l.dropWhile p).map f) := by
  rw [span_eq_pair, takeWhile_map_pred hf, dropWhile_map_pred hf]

theorem not_isDigitC_of_isAlphaC {c : Char} (h : isAlphaC c = true) : isDigitC c = false := by
  simp only [isAlphaC, isUpperC, isLowerC, Bool.or_eq_true, decide_eq_true_eq] at h
  simp only [isDigitC, decide_eq_false_iff_not]
  omega

theorem not_isAlphaC_of_isDigitC {c : Char} (h : isDigitC c = true) : isAlphaC c = false := by
  simp only [isDigitC, decide_eq_true_eq] at h
  simp only [isAlphaC, isUpperC, isLowerC, Bool.or_eq_false_iff, decide_eq_false_iff_not]
  omega

theorem not_isWsC_of_isAlphaC {c : Char} (h : isAlphaC c = true) : isWsC c = false := by
  simp only [isAlphaC, isUpperC, isLowerC, Bool.or_eq_true, decide_eq_true_eq] at h
  simp only [isWsC, decide_eq_false_iff_not]
  omega

theorem alphaC_ne_hyphen {c : Char} (h : isAlphaC c = true) : c ≠ '-' := by
  simp only [isAlphaC, isUpperC, isLowerC, Bool.or_eq_true, decide_eq_true_eq] at h
  have h45 : ('-' : Char).toNat = 45 := by decide
  rw [Ne, charEq_iff_toNat, h45]
  omega

theorem alphaC_ne_slash {c : Char} (h : isAlphaC c = true) : c ≠ '/' := by
  simp only [isAlphaC, isUpperC, isLowerC, Bool.or_eq_true, decide_eq_true_eq] at h
  have h47 : ('/' : Char).toNat = 47 := by decide
  rw [Ne, charEq_iff_toNat, h47]
  omega

theorem digitC_ne_space {c : Char} (h : isDigitC c = true) : c ≠ ' ' := by
  simp only [isDigitC, decide_eq_true_eq] at h
  have h32 : (' ' : Char).toNat = 32 := by decide
  rw [Ne, charEq_iff_toNat, h32]
  omega

theorem digitVal_le_nine {c : Char} (h : isDigitC c = true) : digitVal c ≤ 9 := by
  simp only [isDigitC, decide_eq_true_eq] at h
  simp only [digitVal]
  omega

theorem digitsVal_cons (c : Char) (r : List Char) :
    digitsVal (c :: r) = digitVal c * 10 ^ r.length + digitsVal r := by
  show r.foldl _ (10 * 0 + digitVal c) = _
  rw [foldl_val_shift]
  ring_nf

theorem digitsVal_lt_pow {d : List Char} (h : ∀ c ∈ d, isDigitC c = true) :
    digitsVal d < 10 ^ d.length := by
  induction d with
  | nil => simp [digitsVal]
  | cons c r ih =>
    rw [digitsVal_cons]
    have h1 : digitVal c ≤ 9 := digitVal_le_nine (h c (by simp))
    have h2 := ih (fun x hx => h x (by simp [hx]))
    have h3 : (10 : Nat) ^ (c :: r).length = 10 * 10 ^ r.length := by
      rw [List.length_cons, pow_succ]
      ring
    rw [h3]
    nlinarith [pow_pos (by norm_num : (0 : Nat) < 10) r.length]

theorem digitsVal_pos_of_head_ne_zero {c : Char} {r : List Char}
    (hc : isDigitC c = true) (h0 : c ≠ '0') : 10 ^ r.length ≤ digitsVal (c :: r) := by
  rw [digitsVal_cons]
  have h1 : 1 ≤ digitVal c := by
    simp only [isDigitC, decide_eq_true_eq] at hc
    simp only [digitVal]
    by_contra hcon
    have hz : c.toNat = 48 := by omega
    exact h0 (charEq_of_toNat (by rw [hz]; decide))
  nlinarith [Nat.zero_le (digitsVal r), pow_pos (by norm_num : (0 : Nat) < 10) r.length]

theorem digitsVal_head_zero {r : List Char} : digitsVal ('0' :: r) = digitsVal r := by
  rw [digitsVal_cons]
  have : digitVal '0' = 0 := by decide
  rw [this]
  ring_nf

/-! ### Properties of the backfill matchers -/

theorem upChar_eq_slash_propeq (c : Char) : (upChar c = '/') = (c = '/') :=
  propext (upChar_eq_slash_iff c)

theorem upChar_eq_hyphen_propeq (c : Char) : (upChar c = '-') = (c = '-') :=
  propext (decide_eq_decide.mp (upChar_eq_hyphen_decide c))

theorem span_none_all {p : Char → Bool} {l : List Char} (h : ∀ c ∈ l, p c = false) :
    List.span p l = ([], l) :=
  span_none (fun c hc => h c (List.mem_of_mem_head? hc))

theorem matchSlashFull_inv {l a b : List Char} (h : matchSlashFull l = some (a, b)) :
    (∀ c ∈ a, isDigitC c = true) ∧ 1 ≤ a.length ∧ a.length ≤ 4 ∧
    (∀ c ∈ b, isDigitC c = true) ∧ 1 ≤ b.length ∧ b.length ≤ 4 := by
  unfold matchSlashFull at h
  simp only [span_eq_pair] at h
  split at h
  · exact absurd h (by simp)
  · split at h
    · exact absurd h (by simp)
    · rename_i hc
      split at h
      · split at h
        · exact absurd h (by simp)
        · split at h
          · rename_i hend
            simp only [Option.some.injEq, Prod.mk.injEq] at h
            obtain ⟨ha, hb⟩ := h
            subst ha
            subst hb
            refine ⟨fun c hc2 => List.mem_takeWhile_imp hc2, ?_, ?_,
              fun c hc2 => List.mem_takeWhile_imp hc2, ?_, ?_⟩ <;> omega
          · exact absurd h (by simp)
      · exact absurd h (by simp)

theorem span_ws_digit_head {d rest : List Char} (hd : ∀ c ∈ d, isDigitC c = true)
    (hne : d ≠ []) : List.span isWsC (d ++ rest) = ([], d ++ rest) := by
  apply span_none
  intro c hc
  rw [List.head?_append_of_ne_nil _ hne] at hc
  exact not_isWsC_of_isDigitC (hd c (List.mem_of_mem_head? hc))

theorem matchSlashFull_digits {d1 d2 : List Char}
    (h1 : ∀ c ∈ d1, isDigitC c = true) (h1a : 1 ≤ d1.length) (h1b : d1.length ≤ 4)
    (h2 : ∀ c ∈ d2, isDigitC c = true) (h2a : 1 ≤ d2.length) (h2b : d2.length ≤ 4) :
    matchSlashFull (d1 ++ '/' :: d2) = some (d1, d2) := by
  have hsp1 : List.span isWsC (d1 ++ '/' :: d2) = ([], d1 ++ '/' :: d2) :=
    span_ws_digit_head h1 (by intro hx; rw [hx] at h1a; simp at h1a)
  have hsp2 : List.span isDigitC (d1 ++ '/' :: d2) = (d1, '/' :: d2) :=
    span_append_exact h1 (fun c hc => by
      simp only [List.head?_cons, Option.some.injEq] at hc
      subst hc
      decide)
  have hsp3 : List.span isWsC ('/' :: d2) = ([], '/' :: d2) :=
    span_none (fun c hc => by
      simp only [List.head?_cons, Option.some.injEq] at hc
      subst hc
      decide)
  have hsp4 : List.span isWsC d2 = ([], d2) :=
    span_none (fun x hx => not_isWsC_of_isDigitC (h2 x (List.mem_of_mem_head? hx)))
  have hsp5 : List.span isDigitC d2 = (d2, []) := span_all h2
  simp only [matchSlashFull, hsp1, hsp2]
  rw [if_neg (by omega)]
  simp only [hsp3]
  rw [if_pos trivial]
  simp only [hsp4, hsp5]
  rw [if_neg (by omega)]
  simp

theorem matchSlashFull_none_of_head {c : Char} {r : List Char}
    (hws : isWsC c = false) (hd : isDigitC c = false) : matchSlashFull (c :: r) = none := by
  have hsp1 : List.span isWsC (c :: r) = ([], c :: r) :=
    span_none (fun x hx => by
      simp only [List.head?_cons, Option.some.injEq] at hx
      subst hx
      exact hws)
  have hsp2 : List.span isDigitC (c :: r) = ([], c :: r) :=
    span_none (fun x hx => by
      simp only [List.head?_cons, Option.some.injEq] at hx
      subst hx
      exact hd)
  simp only [matchSlashFull, hsp1, hsp2]
  rw [if_pos (Or.inl (by simp))]

theorem matchSlashFull_none_of_digits {l : List Char} (h : ∀ c ∈ l, isDigitC c = true) :
    matchSlashFull l = none := by
  have hsp1 : List.span isWsC l = ([], l) :=
    span_none_all (fun c hc => not_isWsC_of_isDigitC (h c hc))
  have hsp2 : List.span isDigitC l = (l, []) := span_all h
  simp only [matchSlashFull, hsp1, hsp2]
  by_cases hg : l.length < 1 ∨ 4 < l.length
  · rw [if_pos hg]
  · rw [if_neg hg]
    rfl

theorem matchSlashFull_map_up (l : List Char) :
    matchSlashFull (l.map upChar) =
      (matchSlashFull l).map (fun ab => (ab.1.map upChar, ab.2.map upChar)) := by
  unfold matchSlashFull
  dsimp only
  rw [span_map_pred isWsC_upChar]
  rw [span_eq_pair isWsC l]
  rw [span_map_pred isDigitC_upChar]
  rw [span_eq_pair isDigitC (l.dropWhile isWsC)]
  simp only [List.length_map]
  set X := l.dropWhile isWsC with hX
  by_cases hg1 : (X.takeWhile isDigitC).length < 1 ∨ 4 < (X.takeWhile isDigitC).length
  · rw [if_pos hg1, if_pos hg1]
    rfl
  · rw [if_neg hg1, if_neg hg1]
    rw [span_map_pred isWsC_upChar]
    rw [span_eq_pair isWsC (X.dropWhile isDigitC)]
    set Y := (X.dropWhile isDigitC).dropWhile isWsC with hY
    cases hYc : Y with
    | nil => rfl
    | cons c r =>
      simp only [List.map_cons]
      by_cases hc : c = '/'
      · rw [if_pos ((upChar_eq_slash_iff c).mpr hc), if_pos hc]
        rw [span_map_pred isWsC_upChar, span_eq_pair isWsC r]
        rw [span_map_pred isDigitC_upChar, span_eq_pair isDigitC (r.dropWhile isWsC)]
        simp only [List.length_map]
        set Z := r.dropWhile isWsC with hZ
        by_cases hg2 : (Z.takeWhile isDigitC).length < 1 ∨ 4 < (Z.takeWhile isDigitC).length
        · rw [if_pos hg2, if_pos hg2]
          rfl
        · rw [if_neg hg2, if_neg hg2]
          rw [span_map_pred isWsC_upChar, span_eq_pair isWsC (Z.dropWhile isDigitC)]
          by_cases hend : (Z.dropWhile isDigitC).dropWhile isWsC = []
          · rw [hend]
            simp
          · rw [if_neg (by simp [hend]), if_neg hend]
            rfl
      · rw [if_neg (fun hup => hc ((upChar_eq_slash_iff c).mp hup)), if_neg hc]
        rfl

theorem promoAlphaTail_map_up (p r4 : List Char) :
    promoAlphaTail (p.map upChar) (r4.map upChar) =
      (promoAlphaTail p r4).map (fun pd => (pd.1.map upChar, pd.2.map upChar)) := by
  unfold promoAlphaTail
  dsimp only
  rw [span_map_pred isWsC_upChar, span_eq_pair isWsC r4]
  rw [span_map_pred isDigitC_upChar, span_eq_pair isDigitC (r4.dropWhile isWsC)]
  simp only [List.length_map]
  set Z := r4.dropWhile isWsC with hZ
  by_cases hg : (Z.takeWhile isDigitC).length < 1 ∨ 4 < (Z.takeWhile isDigitC).length
  · rw [if_pos hg, if_pos hg]
    rfl
  · rw [if_neg hg, if_neg hg]
    rw [span_map_pred isWsC_upChar, span_eq_pair isWsC (Z.dropWhile isDigitC)]
    by_cases hend : (Z.dropWhile isDigitC).dropWhile isWsC = []
    · rw [hend]
      simp
    · rw [if_neg (by simp [hend]), if_neg hend]
      rfl

theorem matchPromoAlphaFull_map_up (l : List Char) :
    matchPromoAlphaFull (l.map upChar) =
      (matchPromoAlphaFull l).map (fun pd => (pd.1.map upChar, pd.2.map upChar)) := by
  unfold matchPromoAlphaFull
  dsimp only
  rw [span_map_pred isWsC_upChar, span_eq_pair isWsC l]
  rw [span_map_pred isAlphaC_upChar, span_eq_pair isAlphaC (l.dropWhile isWsC)]
  simp only [List.length_map]
  set X := l.dropWhile isWsC with hX
  by_cases hg1 : (X.takeWhile isAlphaC).length < 2 ∨ 6 < (X.takeWhile isAlphaC).length
  · rw [if_pos hg1, if_pos hg1]
    rfl
  · rw [if_neg hg1, if_neg hg1]
    rw [span_map_pred isWsC_upChar, span_eq_pair isWsC (X.dropWhile isAlphaC)]
    set Y := (X.dropWhile isAlphaC).dropWhile isWsC with hY
    cases hYc : Y with
    | nil =>
      have h0 : (([] : List Char).map upChar) = [] := rfl
      exact promoAlphaTail_map_up _ []
    | cons c r =>
      simp only [List.map_cons]
      by_cases hc : c = '-'
      · rw [if_pos (by rw [upChar_eq_hyphen_propeq]; exact hc), if_pos hc]
        exact promoAlphaTail_map_up _ r
      · rw [if_neg (by rw [upChar_eq_hyphen_propeq]; exact hc), if_neg hc]
        exact promoAlphaTail_map_up _ (c :: r)

theorem promoAlphaTail_digits {p d : List Char}
    (hd : ∀ c ∈ d, isDigitC c = true) (hd1 : 1 ≤ d.length) (hd4 : d.length ≤ 4) :
    promoAlphaTail p d = some (p, d) := by
  have hsp1 : List.span isWsC d = ([], d) :=
    span_none_all (fun c hc => not_isWsC_of_isDigitC (hd c hc))
  have hsp2 : List.span isDigitC d = (d, []) := span_all hd
  simp only [promoAlphaTail, hsp1, hsp2]
  rw [if_neg (by omega)]
  simp

theorem matchPromoAlphaFull_alpha_digits {p d : List Char}
    (hp : ∀ c ∈ p, isAlphaC c = true) (hp2 : 2 ≤ p.length) (hp6 : p.length ≤ 6)
    (hd : ∀ c ∈ d, isDigitC c = true) (hd1 : 1 ≤ d.length) (hd4 : d.length ≤ 4) :
    matchPromoAlphaFull (p ++ d) = some (p, d) := by
  have hpne : p ≠ [] := by intro hx; rw [hx] at hp2; simp at hp2
  have hsp1 : List.span isWsC (p ++ d) = ([], p ++ d) := by
    apply span_none
    intro c hc
    rw [List.head?_append_of_ne_nil _ hpne] at hc
    exact not_isWsC_of_isAlphaC (hp c (List.mem_of_mem_head? hc))
  have hdne : d ≠ [] := by intro hx; rw [hx] at hd1; simp at hd1
  obtain ⟨c0, d0, hd0⟩ : ∃ c0 d0, d = c0 :: d0 := by
    cases d with
    | nil => exact absurd rfl hdne
    | cons x xs => exact ⟨_, _, rfl⟩
  have hsp2 : List.span isAlphaC (p ++ d) = (p, d) := by
    apply span_append_exact hp
    intro x hx
    rw [hd0] at hx
    simp only [List.head?_cons, Option.some.injEq] at hx
    subst hx
    exact not_isAlphaC_of_isDigitC (hd c0 (by rw [hd0]; simp))
  have hsp3 : List.span isWsC d = ([], d) :=
    span_none_all (fun c hc => not_isWsC_of_isDigitC (hd c hc))
  simp only [matchPromoAlphaFull, hsp1, hsp2]
  rw [if_neg (by omega)]
  simp only [hsp3]
  rw [hd0]
  show promoAlphaTail p (if c0 = '-' then d0 else c0 :: d0) = some (p, c0 :: d0)
  rw [if_neg (digitC_ne_minus (hd c0 (by rw [hd0]; simp)))]
  rw [← hd0]
  exact promoAlphaTail_digits hd hd1 hd4

theorem matchPromoAlphaFull_none_of_head {c : Char} {r : List Char}
    (hws : isWsC c = false) (ha : isAlphaC c = false) :
    matchPromoAlphaFull (c :: r) = none := by
  have hsp1 : List.span isWsC (c :: r) = ([], c :: r) :=
    span_none (fun x hx => by
      simp only [List.head?_cons, Option.some.injEq] at hx
      subst hx
      exact hws)
  have hsp2 : List.span isAlphaC (c :: r) = ([], c :: r) :=
    span_none (fun x hx => by
      simp only [List.head?_cons, Option.some.injEq] at hx
      subst hx
      exact ha)
  simp only [matchPromoAlphaFull, hsp1, hsp2]
  rw [if_pos (Or.inl (by simp))]

theorem promoAlphaTail_inv {p r4 q num : List Char} (h : promoAlphaTail p r4 = some (q, num)) :
    q = p ∧ (∀ c ∈ num, isDigitC c = true) ∧ 1 ≤ num.length ∧ num.length ≤ 4 := by
  unfold promoAlphaTail at h
  simp only [span_eq_pair] at h
  split at h
  · exact absurd h (by simp)
  · split at h
    · simp only [Option.some.injEq, Prod.mk.injEq] at h
      obtain ⟨hq, hnum⟩ := h
      subst hq
      subst hnum
      refine ⟨rfl, fun c hc => List.mem_takeWhile_imp hc, ?_, ?_⟩ <;> omega
    · exact absurd h (by simp)

theorem matchPromoAlphaFull_inv {l p num : List Char}
    (h : matchPromoAlphaFull l = some (p, num)) :
    (∀ c ∈ p, isAlphaC c = true) ∧ 2 ≤ p.length ∧ p.length ≤ 6 ∧
    (∀ c ∈ num, isDigitC c = true) ∧ 1 ≤ num.length ∧ num.length ≤ 4 := by
  unfold matchPromoAlphaFull at h
  simp only [span_eq_pair] at h
  split at h
  · exact absurd h (by simp)
  · obtain ⟨hq, hnum⟩ := promoAlphaTail_inv h
    subst hq
    refine ⟨fun c hc => List.mem_takeWhile_imp hc, by omega, by omega, hnum⟩

theorem promoAlphaTail_decomp {p r4 q num : List Char}
    (hr : ∀ c ∈ r4, isWsC c = false) (h : promoAlphaTail p r4 = some (q, num)) :
    q = p ∧ r4 = num := by
  have hsp1 : List.span isWsC r4 = ([], r4) := span_none_all hr
  unfold promoAlphaTail at h
  dsimp only at h
  rw [hsp1] at h
  rw [span_eq_pair isDigitC r4] at h
  have hsp2 : List.span isWsC (r4.dropWhile isDigitC) = ([], r4.dropWhile isDigitC) :=
    span_none_all (fun c hc => hr c ((List.dropWhile_sublist isDigitC).subset hc))
  rw [hsp2] at h
  split at h
  · exact absurd h (by simp)
  · split at h
    · rename_i hend
      have hend2 : List.dropWhile isDigitC r4 = [] := hend
      simp only [Option.some.injEq, Prod.mk.injEq] at h
      refine ⟨h.1.symm, ?_⟩
      rw [← h.2]
      conv_lhs => rw [← List.takeWhile_append_dropWhile isDigitC r4]
      rw [hend2]
      simp
    · exact absurd h (by simp)

theorem matchPromoAlphaFull_decomp {l p num : List Char}
    (hl : ∀ c ∈ l, isWsC c = false ∧ ¬(c = '-'))
    (h : matchPromoAlphaFull l = some (p, num)) : l = p ++ num := by
  have hsp1 : List.span isWsC l = ([], l) := span_none_all (fun c hc => (hl c hc).1)
  unfold matchPromoAlphaFull at h
  dsimp only at h
  rw [hsp1] at h
  rw [span_eq_pair isAlphaC l] at h
  have hsub : ∀ c ∈ l.dropWhile isAlphaC, c ∈ l :=
    fun c hc => (List.dropWhile_sublist isAlphaC).subset hc
  have hsp2 : List.span isWsC (l.dropWhile isAlphaC) = ([], l.dropWhile isAlphaC) :=
    span_none_all (fun c hc => (hl c (hsub c hc)).1)
  rw [hsp2] at h
  split at h
  · exact absurd h (by simp)
  · cases hr2 : l.dropWhile isAlphaC with
    | nil =>
      rw [hr2] at h
      dsimp only at h
      have hnone : promoAlphaTail (l.takeWhile isAlphaC) [] = none := by
        unfold promoAlphaTail
        dsimp only
        rw [if_pos (Or.inl (by simp))]
      rw [hnone] at h
      cases h
    | cons c rr =>
      rw [hr2] at h
      dsimp only at h
      have hc : ¬(c = '-') := (hl c (hsub c (by rw [hr2]; simp))).2
      rw [if_neg hc] at h
      obtain ⟨hq, hnum⟩ := promoAlphaTail_decomp
        (fun x hx => (hl x (hsub x (by rw [hr2]; exact hx))).1) h
      rw [hq, ← hnum, ← hr2]
      exact (List.takeWhile_append_dropWhile isAlphaC l).symm

theorem startsWith0_iff_head? (l : List Char) : startsWith0 l = true ↔ l.head? = some '0' := by
  cases l with
  | nil => simp [startsWith0]
  | cons c r => simp [startsWith0]

theorem pyIntL?_digits {d : List Char} (hne : d ≠ []) (hd : ∀ c ∈ d, isDigitC c = true) :
    pyIntL? d = some ((digitsVal d : Nat) : Int) := by
  unfold pyIntL?
  rw [pyStripL_of_no_ws (fun c hc => not_isWsC_of_isDigitC (hd c hc))]
  obtain ⟨c, r, hcr⟩ : ∃ c r, d = c :: r := by
    cases d with
    | nil => exact absurd rfl hne
    | cons x xs => exact ⟨_, _, rfl⟩
  have hc : isDigitC c = true := hd c (by rw [hcr]; simp)
  rw [hcr]
  simp only [pySigned?]
  rw [if_neg (digitC_ne_plus hc), if_neg (digitC_ne_minus hc), ← hcr,
    pyDigits?_all_digits hne hd]
  rfl

theorem intRender_ofNat (n : Nat) : intRender ((n : Nat) : Int) = natRender n := by
  unfold intRender
  rw [if_neg (by omega)]
  simp

theorem filter_nospace_of_no_ws {l : List Char} (h : ∀ c ∈ l, isWsC c = false) :
    l.filter (fun c => !(c = ' ')) = l := by
  rw [List.filter_eq_self]
  intro c hc
  have hcs : ¬(c = ' ') := by
    intro he
    have hw := h c hc
    rw [he] at hw
    exact absurd hw (by decide)
  simp [hcs]

theorem filter_promoKeep_of {l : List Char}
    (h : ∀ c ∈ l, isWsC c = false ∧ ¬(c = '-')) : l.filter promoKeep = l := by
  rw [List.filter_eq_self]
  intro c hc
  unfold promoKeep
  rw [(h c hc).1]
  simp [(h c hc).2]

theorem filter_digit_map_up (l : List Char) :
    (l.map upChar).filter isDigitC = (l.filter isDigitC).map upChar := by
  rw [List.filter_map]
  congr 1
  apply List.filter_congr
  intro c _
  show isDigitC (upChar c) = isDigitC c
  exact isDigitC_upChar c

theorem normExtL_eq_slash {l a b : List Char} (hs : pyStripL l = l) (hne : ¬(l = []))
    (hm : matchSlashFull l = some (a, b)) :
    normExtL l = natRender (digitsVal a) ++ '/' :: natRender (digitsVal b) := by
  unfold normExtL
  dsimp only
  rw [hs, if_neg hne, hm]

theorem normExtL_eq_promo {l p num : List Char} (hs : pyStripL l = l) (hne : ¬(l = []))
    (h1 : matchSlashFull l = none)
    (h2 : matchPromoAlphaFull (l.filter (fun c => !(c = ' '))) = some (p, num)) :
    normExtL l = (p.map upChar) ++
      (if startsWith0 (l.filter isDigitC) then
        padRender (digitsVal num) (max 2 (min 4 (l.filter isDigitC).length))
       else natRender (digitsVal num)) := by
  unfold normExtL
  dsimp only
  rw [hs, if_neg hne, h1, h2]

theorem normExtL_eq_numeric {l : List Char} (hs : pyStripL l = l) (hne : ¬(l = []))
    (h1 : matchSlashFull l = none)
    (h2 : matchPromoAlphaFull (l.filter (fun c => !(c = ' '))) = none)
    (h3 : l.filter isDigitC = l) :
    normExtL l = natRender (digitsVal l) := by
  unfold normExtL
  dsimp only
  rw [hs, if_neg hne, h1, h2, h3, if_pos ⟨hne, rfl⟩]

theorem normExtL_eq_fallback {l : List Char} (hs : pyStripL l = l) (hne : ¬(l = []))
    (h1 : matchSlashFull l = none)
    (h2 : matchPromoAlphaFull (l.filter (fun c => !(c = ' '))) = none)
    (h3 : ¬(l.filter isDigitC ≠ [] ∧ l.filter isDigitC = l)) :
    normExtL l = (l.filter promoKeep).map upChar := by
  unfold normExtL
  dsimp only
  rw [hs, if_neg hne, h1, h2, if_neg h3]

theorem normExtL_idem_slash {l a b : List Char}
    (hs : pyStripL l = l) (hne : ¬(l = [])) (hm : matchSlashFull l = some (a, b)) :
    normExtL (normExtL l) = normExtL l := by
  obtain ⟨hda, hla1, hla4, hdb, hlb1, hlb4⟩ := matchSlashFull_inv hm
  have hout := normExtL_eq_slash hs hne hm
  have hdA := natRender_all_digits (digitsVal a)
  have hdB := natRender_all_digits (digitsVal b)
  have hA1 : 1 ≤ (natRender (digitsVal a)).length := List.length_pos.mpr (natRender_ne_nil _)
  have hB1 : 1 ≤ (natRender (digitsVal b)).length := List.length_pos.mpr (natRender_ne_nil _)
  have hA4 : (natRender (digitsVal a)).length ≤ 4 :=
    natRender_length_le (by omega)
      (lt_of_lt_of_le (digitsVal_lt_pow hda) (Nat.pow_le_pow_right (by omega) hla4))
  have hB4 : (natRender (digitsVal b)).length ≤ 4 :=
    natRender_length_le (by omega)
      (lt_of_lt_of_le (digitsVal_lt_pow hdb) (Nat.pow_le_pow_right (by omega) hlb4))
  have hnows : ∀ c ∈ natRender (digitsVal a) ++ '/' :: natRender (digitsVal b),
      isWsC c = false := by
    intro c hc
    rcases List.mem_append.mp hc with h | h
    · exact natRender_no_ws _ c h
    · rcases List.mem_cons.mp h with h' | h'
      · rw [h']; decide
      · exact natRender_no_ws _ c h'
  have hs' := pyStripL_of_no_ws hnows
  have hne' : ¬(natRender (digitsVal a) ++ '/' :: natRender (digitsVal b) = []) := by
    intro hx
    rcases List.append_eq_nil.mp hx with ⟨_, h2x⟩
    cases h2x
  have hm' := matchSlashFull_digits hdA hA1 hA4 hdB hB1 hB4
  rw [hout, normExtL_eq_slash hs' hne' hm', digitsVal_natRender, digitsVal_natRender]

theorem normExtL_alpha_digits {p D : List Char}
    (hpa : ∀ c ∈ p, isAlphaC c = true) (hp2 : 2 ≤ p.length) (hp6 : p.length ≤ 6)
    (hdD : ∀ c ∈ D, isDigitC c = true) (hD1 : 1 ≤ D.length) (hD4 : D.length ≤ 4) :
    normExtL (p ++ D) =
      p.map upChar ++
        (if startsWith0 D then padRender (digitsVal D) (max 2 (min 4 D.length))
         else natRender (digitsVal D)) := by
  have hnows : ∀ c ∈ p ++ D, isWsC c = false := by
    intro c hc
    rcases List.mem_append.mp hc with h | h
    · exact not_isWsC_of_isAlphaC (hpa c h)
    · exact not_isWsC_of_isDigitC (hdD c h)
  have hs : pyStripL (p ++ D) = p ++ D := pyStripL_of_no_ws hnows
  have hne : ¬(p ++ D = []) := by
    intro hx
    rcases List.append_eq_nil.mp hx with ⟨hp', _⟩
    rw [hp'] at hp2
    simp at hp2
  obtain ⟨c0, p', hp⟩ : ∃ c0 p', p = c0 :: p' := by
    cases p with
    | nil => simp at hp2
    | cons x xs => exact ⟨x, xs, rfl⟩
  have hc0 : isAlphaC c0 = true := hpa c0 (by rw [hp]; simp)
  have h1 : matchSlashFull (p ++ D) = none := by
    rw [hp, List.cons_append]
    exact matchSlashFull_none_of_head (not_isWsC_of_isAlphaC hc0) (not_isDigitC_of_isAlphaC hc0)
  have h2 : matchPromoAlphaFull (p ++ D) = some (p, D) :=
    matchPromoAlphaFull_alpha_digits hpa hp2 hp6 hdD hD1 hD4
  have htl : (p ++ D).filter isDigitC = D := by
    rw [List.filter_append, List.filter_eq_self.mpr hdD]
    have hpn : p.filter isDigitC = [] := by
      rw [List.filter_eq_nil_iff]
      intro c hc
      rw [not_isDigitC_of_isAlphaC (hpa c hc)]
      exact Bool.false_ne_true
    rw [hpn, List.nil_append]
  rw [normExtL_eq_promo hs hne h1 (by rw [filter_nospace_of_no_ws hnows]; exact h2), htl]

theorem normExtL_digits {l : List Char} (hdl : ∀ c ∈ l, isDigitC c = true)
    (hne : ¬(l = [])) : normExtL l = natRender (digitsVal l) := by
  have hnows : ∀ c ∈ l, isWsC c = false := fun c hc => not_isWsC_of_isDigitC (hdl c hc)
  obtain ⟨c0, r, hl⟩ : ∃ c0 r, l = c0 :: r := by
    cases l with
    | nil => exact absurd rfl hne
    | cons x xs => exact ⟨x, xs, rfl⟩
  have hc0 := hdl c0 (by rw [hl]; simp)
  refine normExtL_eq_numeric (pyStripL_of_no_ws hnows) hne
    (matchSlashFull_none_of_digits hdl) ?_ (List.filter_eq_self.mpr hdl)
  rw [filter_nospace_of_no_ws hnows, hl]
  exact matchPromoAlphaFull_none_of_head (not_isWsC_of_isDigitC hc0)
    (not_isAlphaC_of_isDigitC hc0)

theorem normExtL_idem_promo {l p num : List Char}
    (hl : ∀ c ∈ l, isWsC c = false ∧ ¬(c = '-'))
    (hne : ¬(l = [])) (h1 : matchSlashFull l = none)
    (h2f : matchPromoAlphaFull (l.filter (fun c => !(c = ' '))) = some (p, num)) :
    normExtL (normExtL l) = normExtL l := by
  have hnows : ∀ c ∈ l, isWsC c = false := fun c hc => (hl c hc).1
  have hs : pyStripL l = l := pyStripL_of_no_ws hnows
  have hfs : l.filter (fun c => !(c = ' ')) = l := filter_nospace_of_no_ws hnows
  have h2 : matchPromoAlphaFull l = some (p, num) := by rw [hfs] at h2f; exact h2f
  obtain ⟨hpa, hp2, hp6, hnd, hn1, hn4⟩ := matchPromoAlphaFull_inv h2
  have htl : l.filter isDigitC = num := by
    rw [matchPromoAlphaFull_decomp hl h2, List.filter_append, List.filter_eq_self.mpr hnd]
    have hpn : p.filter isDigitC = [] := by
      rw [List.filter_eq_nil_iff]
      intro c hc
      rw [not_isDigitC_of_isAlphaC (hpa c hc)]
      exact Bool.false_ne_true
    rw [hpn, List.nil_append]
  have hout : normExtL l =
      p.map upChar ++
        (if startsWith0 num then padRender (digitsVal num) (max 2 (min 4 num.length))
         else natRender (digitsVal num)) := by
    rw [normExtL_eq_promo hs hne h1 h2f, htl]
  have hmapa : ∀ c ∈ p.map upChar, isAlphaC c = true := by
    intro c hc
    obtain ⟨x, hx, rfl⟩ := List.mem_map.mp hc
    rw [isAlphaC_upChar]
    exact hpa x hx
  have hmaplen2 : 2 ≤ (p.map upChar).length := by rw [List.length_map]; exact hp2
  have hmaplen6 : (p.map upChar).length ≤ 6 := by rw [List.length_map]; exact hp6
  have hmapidem : (p.map upChar).map upChar = p.map upChar := by
    rw [List.map_map]
    exact List.map_congr_left (fun c _ => upChar_upChar c)
  by_cases hz : startsWith0 num = true
  · -- leading zero: the digit suffix is zero-padded to the clamped width
    obtain ⟨nr, hnum⟩ : ∃ nr, num = '0' :: nr := by
      cases num with
      | nil => simp at hn1
      | cons c r =>
        have hh := (startsWith0_iff_head? (c :: r)).mp hz
        simp only [List.head?_cons, Option.some.injEq] at hh
        exact ⟨r, by rw [hh]⟩
    have hval : digitsVal num = digitsVal nr := by rw [hnum]; exact digitsVal_head_zero
    have hrl : (natRender (digitsVal num)).length < max 2 (min 4 num.length) := by
      by_cases h0 : digitsVal num = 0
      · rw [h0]
        have hone : (natRender 0).length = 1 := by decide
        rw [hone]
        omega
      · have hnrne : nr ≠ [] := by
          intro hx
          rw [hval, hx] at h0
          exact h0 rfl
        have hnr1 : 1 ≤ nr.length := List.length_pos.mpr hnrne
        have hnrd : ∀ c ∈ nr, isDigitC c = true := fun c hc =>
          hnd c (by rw [hnum]; exact List.mem_cons_of_mem _ hc)
        have hren : (natRender (digitsVal num)).length ≤ nr.length := by
          rw [hval]
          exact natRender_length_le hnr1 (digitsVal_lt_pow hnrd)
        have hlen : num.length = nr.length + 1 := by rw [hnum]; simp
        omega
    rw [hout, if_pos hz]
    set w := max 2 (min 4 num.length) with hwdef
    set D := padRender (digitsVal num) w with hDdef
    have hDd : ∀ c ∈ D, isDigitC c = true := by
      rw [hDdef]
      exact padRender_all_digits _ _
    have hDlen : D.length = w := by
      rw [hDdef, padRender_length]
      omega
    have hD0 : startsWith0 D = true := by
      rw [hDdef]
      exact (startsWith0_iff_head? _).mpr (padRender_head?_of_lt hrl)
    rw [normExtL_alpha_digits hmapa hmaplen2 hmaplen6 hDd (by rw [hDlen]; omega)
      (by rw [hDlen]; omega)]
    rw [hmapidem, if_pos hD0, hDlen]
    have hww : max 2 (min 4 w) = w := by omega
    rw [hww, hDdef, digitsVal_padRender]
  · -- no leading zero: the digit suffix is the plain rendering
    obtain ⟨c0, nr, hnum⟩ : ∃ c0 nr, num = c0 :: nr := by
      cases num with
      | nil => simp at hn1
      | cons c r => exact ⟨c, r, rfl⟩
    have hc0ne : ¬(c0 = '0') := by
      intro hx
      apply hz
      rw [hnum, hx]
      rfl
    have hc0d : isDigitC c0 = true := hnd c0 (by rw [hnum]; simp)
    have hpos : digitsVal num ≠ 0 := by
      have hge := digitsVal_pos_of_head_ne_zero (r := nr) hc0d hc0ne
      have hge1 : 1 ≤ 10 ^ nr.length := Nat.one_le_pow _ _ (by omega)
      rw [hnum]
      omega
    have hDd := natRender_all_digits (digitsVal num)
    have hD1 : 1 ≤ (natRender (digitsVal num)).length :=
      List.length_pos.mpr (natRender_ne_nil _)
    have hD4 : (natRender (digitsVal num)).length ≤ 4 :=
      natRender_length_le (by omega)
        (lt_of_lt_of_le (digitsVal_lt_pow hnd) (Nat.pow_le_pow_right (by omega) hn4))
    have hD0f : ¬(startsWith0 (natRender (digitsVal num)) = true) := by
      intro hb
      exact natRender_head?_ne_zero hpos ((startsWith0_iff_head? _).mp hb)
    rw [hout, if_neg hz]
    rw [normExtL_alpha_digits hmapa hmaplen2 hmaplen6 hDd hD1 hD4]
    rw [hmapidem, if_neg hD0f, digitsVal_natRender]

theorem normExtL_idem_fallback {l : List Char}
    (hl : ∀ c ∈ l, isWsC c = false ∧ ¬(c = '-')) (hne : ¬(l = []))
    (h1 : matchSlashFull l = none)
    (h2 : matchPromoAlphaFull l = none)
    (h3 : ¬(l.filter isDigitC ≠ [] ∧ l.filter isDigitC = l)) :
    normExtL (normExtL l) = normExtL l := by
  have hnows : ∀ c ∈ l, isWsC c = false := fun c hc => (hl c hc).1
  have hs : pyStripL l = l := pyStripL_of_no_ws hnows
  have hfs : l.filter (fun c => !(c = ' ')) = l := filter_nospace_of_no_ws hnows
  have hpk : l.filter promoKeep = l := filter_promoKeep_of hl
  have hout : normExtL l = l.map upChar := by
    rw [normExtL_eq_fallback hs hne h1 (by rw [hfs]; exact h2) h3, hpk]
  have houtprops : ∀ c ∈ l.map upChar, isWsC c = false ∧ ¬(c = '-') := by
    intro c hc
    obtain ⟨x, hx, rfl⟩ := List.mem_map.mp hc
    refine ⟨?_, ?_⟩
    · rw [isWsC_upChar]
      exact (hl x hx).1
    · rw [upChar_eq_hyphen_propeq]
      exact (hl x hx).2
  have hnows' : ∀ c ∈ l.map upChar, isWsC c = false := fun c hc => (houtprops c hc).1
  have hne' : ¬(l.map upChar = []) := by
    intro hx
    exact hne (List.map_eq_nil_iff.mp hx)
  have h1' : matchSlashFull (l.map upChar) = none := by
    rw [matchSlashFull_map_up, h1]
    rfl
  have h2' : matchPromoAlphaFull (l.map upChar) = none := by
    rw [matchPromoAlphaFull_map_up, h2]
    rfl
  have h3' : ¬((l.map upChar).filter isDigitC ≠ [] ∧
      (l.map upChar).filter isDigitC = l.map upChar) := by
    rw [filter_digit_map_up]
    intro hg
    apply h3
    refine ⟨?_, ?_⟩
    · intro hx
      rw [hx] at hg
      exact hg.1 rfl
    · have hlen : (l.filter isDigitC).length = l.length := by
        have hc := congrArg List.length hg.2
        simpa using hc
      have hall : ∀ c ∈ l, isDigitC c = true := List.filter_length_eq_length.mp hlen
      exact List.filter_eq_self.mpr hall
  rw [hout, normExtL_eq_fallback (pyStripL_of_no_ws hnows') hne' h1'
    (by rw [filter_nospace_of_no_ws hnows']; exact h2') h3']
  rw [filter_promoKeep_of houtprops, List.map_map]
  exact List.map_congr_left (fun c _ => upChar_upChar c)

theorem normExtL_idem {l : List Char}
    (hl : ∀ c ∈ l, isWsC c = false ∧ ¬(c = '-')) :
    normExtL (normExtL l) = normExtL l := by
  by_cases hne : l = []
  · rw [hne]
    decide
  have hnows : ∀ c ∈ l, isWsC c = false := fun c hc => (hl c hc).1
  have hs : pyStripL l = l := pyStripL_of_no_ws hnows
  have hfs : l.filter (fun c => !(c = ' ')) = l := filter_nospace_of_no_ws hnows
  cases hm : matchSlashFull l with
  | some ab =>
    obtain ⟨a, b⟩ := ab
    exact normExtL_idem_slash hs hne hm
  | none =>
    cases h2 : matchPromoAlphaFull l with
    | some pn =>
      obtain ⟨p, num⟩ := pn
      exact normExtL_idem_promo hl hne hm (by rw [hfs]; exact h2)
    | none =>
      by_cases h3 : l.filter isDigitC ≠ [] ∧ l.filter isDigitC = l
      · have hdl : ∀ c ∈ l, isDigitC c = true := List.filter_eq_self.mp h3.2
        rw [normExtL_digits hdl hne,
          normExtL_digits (natRender_all_digits _) (natRender_ne_nil _),
          digitsVal_natRender]
      · exact normExtL_idem_fallback hl hne hm h2 h3

theorem pyStripL_of_ends {l : List Char}
    (hh : ∀ c, l.head? = some c → isWsC c = false)
    (hg : ∀ c, l.getLast? = some c → isWsC c = false) : pyStripL l = l := by
  unfold pyStripL
  have h1 : l.dropWhile isWsC = l := by
    cases l with
    | nil => rfl
    | cons c r => exact dropWhile_of_head_not rfl (hh c rfl)
  rw [h1, List.rdropWhile_eq_self_iff]
  intro hl
  rw [hg (l.getLast hl) (List.getLast?_eq_getLast l hl)]
  simp

theorem not_isUpperC_of_isDigitC {c : Char} (h : isDigitC c = true) : isUpperC c = false := by
  simp only [isDigitC, decide_eq_true_eq] at h
  simp only [isUpperC, decide_eq_false_iff_not]
  omega

theorem mapUp_digits {d : List Char} (h : ∀ c ∈ d, isDigitC c = true) :
    d.map upChar = d := by
  have h2 : d.map upChar = d.map id := List.map_congr_left (fun c hc => upChar_of_digit (h c hc))
  rw [h2, List.map_id]

theorem not_isDigitC_of_isWsC {c : Char} (h : isWsC c = true) : isDigitC c = false := by
  simp only [isWsC, decide_eq_true_eq] at h
  simp only [isDigitC, decide_eq_false_iff_not]
  omega

theorem matchSlashFull_token {d1 w1 w2 d2 : List Char}
    (h1 : ∀ c ∈ d1, isDigitC c = true) (h1a : 1 ≤ d1.length) (h1b : d1.length ≤ 4)
    (h2 : ∀ c ∈ d2, isDigitC c = true) (h2a : 1 ≤ d2.length) (h2b : d2.length ≤ 4)
    (hw1 : ∀ c ∈ w1, isWsC c = true) (hw2 : ∀ c ∈ w2, isWsC c = true) :
    matchSlashFull (d1 ++ w1 ++ '/' :: (w2 ++ d2)) = some (d1, d2) := by
  rw [List.append_assoc]
  have hd1ne : d1 ≠ [] := by intro hx; rw [hx] at h1a; simp at h1a
  have hd2ne : d2 ≠ [] := by intro hx; rw [hx] at h2a; simp at h2a
  have hsp1 : List.span isWsC (d1 ++ (w1 ++ '/' :: (w2 ++ d2))) =
      ([], d1 ++ (w1 ++ '/' :: (w2 ++ d2))) := span_ws_digit_head h1 hd1ne
  have hsp2 : List.span isDigitC (d1 ++ (w1 ++ '/' :: (w2 ++ d2))) =
      (d1, w1 ++ '/' :: (w2 ++ d2)) := by
    apply span_append_exact h1
    intro c hc
    cases w1 with
    | nil =>
      simp only [List.nil_append, List.head?_cons, Option.some.injEq] at hc
      rw [← hc]
      decide
    | cons a r =>
      simp only [List.cons_append, List.head?_cons, Option.some.injEq] at hc
      rw [← hc]
      exact not_isDigitC_of_isWsC (hw1 a (by simp))
  have hsp3 : List.span isWsC (w1 ++ '/' :: (w2 ++ d2)) = (w1, '/' :: (w2 ++ d2)) := by
    apply span_append_exact hw1
    intro c hc
    simp only [List.head?_cons, Option.some.injEq] at hc
    rw [← hc]
    decide
  have hsp4 : List.span isWsC (w2 ++ d2) = (w2, d2) := by
    apply span_append_exact hw2
    intro c hc
    obtain ⟨a, r, hd2⟩ : ∃ a r, d2 = a :: r := by
      cases d2 with
      | nil => exact absurd rfl hd2ne
      | cons x xs => exact ⟨x, xs, rfl⟩
    rw [hd2] at hc
    simp only [List.head?_cons, Option.some.injEq] at hc
    rw [← hc]
    exact not_isWsC_of_isDigitC (h2 a (by rw [hd2]; simp))
  have hsp5 : List.span isDigitC d2 = (d2, []) := span_all h2
  simp only [matchSlashFull, hsp1, hsp2, hsp3, hsp5, hsp4]
  rw [if_neg (by omega)]
  rw [if_pos trivial]
  rw [if_neg (by omega)]
  rfl

theorem slashParse?_token {d1 w1 w2 d2 : List Char}
    (h1 : ∀ c ∈ d1, isDigitC c = true) (h1n : d1 ≠ [])
    (h2 : ∀ c ∈ d2, isDigitC c = true) (h2n : d2 ≠ [])
    (hw1 : ∀ c ∈ w1, isWsC c = true) (hw2 : ∀ c ∈ w2, isWsC c = true) :
    slashParse? (d1 ++ w1 ++ '/' :: (w2 ++ d2)) =
      some (((digitsVal d1 : Nat) : Int), ((digitsVal d2 : Nat) : Int)) := by
  have hno1 : ∀ c ∈ w2 ++ d2, c ≠ '/' := by
    intro c hc
    rcases List.mem_append.mp hc with h | h
    · exact wsC_ne_slash (hw2 c h)
    · exact digitC_ne_slash (h2 c h)
  have hs1 : splitSlash ('/' :: (w2 ++ d2)) = [] :: [w2 ++ d2] := by
    rw [splitSlash_cons_slash, splitSlash_no_slash hno1]
  have hs2 : splitSlash (w1 ++ '/' :: (w2 ++ d2)) = [w1, w2 ++ d2] := by
    have := splitSlash_append (fun c hc => wsC_ne_slash (hw1 c hc)) hs1
    simpa using this
  have hs3 : splitSlash (d1 ++ (w1 ++ '/' :: (w2 ++ d2))) = [d1 ++ w1, w2 ++ d2] := by
    have := splitSlash_append (fun c hc => digitC_ne_slash (h1 c hc)) hs2
    simpa using this
  rw [List.append_assoc]
  rw [slashParse?_parts (slashParts?_of_split hs3)]
  rw [pyIntL?_ws_right hw1, pyIntL?_ws_left hw2]
  rw [pyIntL?_digits h1n h1, pyIntL?_digits h2n h2]

theorem normSlashL_token {d1 w1 w2 d2 : List Char}
    (h1 : ∀ c ∈ d1, isDigitC c = true) (h1n : d1 ≠ [])
    (h2 : ∀ c ∈ d2, isDigitC c = true) (h2n : d2 ≠ [])
    (hw1 : ∀ c ∈ w1, isWsC c = true) (hw2 : ∀ c ∈ w2, isWsC c = true) :
    normSlashL (d1 ++ w1 ++ '/' :: (w2 ++ d2)) =
      natRender (digitsVal d1) ++ '/' :: natRender (digitsVal d2) := by
  rw [normSlashL_some (slashParse?_token h1 h1n h2 h2n hw1 hw2)]
  rw [intRender_ofNat, intRender_ofNat]

theorem pyStripL_slash_token {d1 w1 w2 d2 : List Char}
    (h1 : ∀ c ∈ d1, isDigitC c = true) (h1n : d1 ≠ [])
    (h2 : ∀ c ∈ d2, isDigitC c = true) (h2n : d2 ≠ []) :
    pyStripL (d1 ++ w1 ++ '/' :: (w2 ++ d2)) = d1 ++ w1 ++ '/' :: (w2 ++ d2) := by
  apply pyStripL_of_ends
  · intro c hc
    obtain ⟨a, r, hd1⟩ : ∃ a r, d1 = a :: r := by
      cases d1 with
      | nil => exact absurd rfl h1n
      | cons x xs => exact ⟨x, xs, rfl⟩
    rw [hd1] at hc
    simp only [List.cons_append, List.head?_cons, Option.some.injEq] at hc
    rw [← hc]
    exact not_isWsC_of_isDigitC (h1 a (by rw [hd1]; simp))
  · intro c hc
    obtain ⟨q, a, hd2⟩ : ∃ q a, d2 = q ++ [a] := by
      rcases List.eq_nil_or_concat d2 with h | ⟨q, a, h⟩
      · exact absurd h h2n
      · exact ⟨q, a, by rw [h, List.concat_eq_append]⟩
    have hlast : (d1 ++ w1 ++ '/' :: (w2 ++ d2)).getLast? = some a := by
      rw [hd2]
      have hassoc : d1 ++ w1 ++ '/' :: (w2 ++ (q ++ [a])) =
          (d1 ++ w1 ++ '/' :: (w2 ++ q)) ++ [a] := by simp
      rw [hassoc, List.getLast?_concat]
    rw [hlast] at hc
    simp only [Option.some.injEq] at hc
    rw [← hc]
    exact not_isWsC_of_isDigitC (h2 a (by rw [hd2]; simp))

theorem normExtL_slash_token {d1 w1 w2 d2 : List Char}
    (h1 : ∀ c ∈ d1, isDigitC c = true) (h1a : 1 ≤ d1.length) (h1b : d1.length ≤ 4)
    (h2 : ∀ c ∈ d2, isDigitC c = true) (h2a : 1 ≤ d2.length) (h2b : d2.length ≤ 4)
    (hw1 : ∀ c ∈ w1, isWsC c = true) (hw2 : ∀ c ∈ w2, isWsC c = true) :
    normExtL (d1 ++ w1 ++ '/' :: (w2 ++ d2)) =
      natRender (digitsVal d1) ++ '/' :: natRender (digitsVal d2) := by
  have h1n : d1 ≠ [] := by intro hx; rw [hx] at h1a; simp at h1a
  have h2n : d2 ≠ [] := by intro hx; rw [hx] at h2a; simp at h2a
  have hne : ¬(d1 ++ w1 ++ '/' :: (w2 ++ d2) = []) := by
    intro hx
    rcases List.append_eq_nil.mp hx with ⟨_, hx2⟩
    cases hx2
  exact normExtL_eq_slash (pyStripL_slash_token h1 h1n h2 h2n) hne
    (matchSlashFull_token h1 h1a h1b h2 h2a h2b hw1 hw2)

theorem filter_nws_map_up (l : List Char) :
    (l.map upChar).filter (fun c => !isWsC c) = (l.filter (fun c => !isWsC c)).map upChar := by
  rw [List.filter_map]
  congr 1
  apply List.filter_congr
  intro c _
  show (!isWsC (upChar c)) = (!isWsC c)
  rw [isWsC_upChar]

theorem normalize_num_part_digits {d : List Char}
    (hd : ∀ c ∈ d, isDigitC c = true) (hne : d ≠ []) :
    normalize_num_part d = natRender (digitsVal d) := by
  have hnows : ∀ c ∈ d, isWsC c = false := fun c hc => not_isWsC_of_isDigitC (hd c hc)
  unfold normalize_num_part
  dsimp only
  rw [pyStripL_of_no_ws hnows, mapUp_digits hd]
  have hsp : List.span isUpperC d = ([], d) := by
    apply span_none
    intro c hc
    exact not_isUpperC_of_isDigitC (hd c (List.mem_of_mem_head? hc))
  rw [hsp]
  rw [if_neg (by intro hx; exact hx.1 rfl)]
  rw [if_pos ⟨hne, List.all_eq_true.mpr hd⟩]

theorem normCollectorL_slash_token {d1 w1 w2 d2 : List Char}
    (h1 : ∀ c ∈ d1, isDigitC c = true) (h1n : d1 ≠ [])
    (h2 : ∀ c ∈ d2, isDigitC c = true) (h2n : d2 ≠ [])
    (hw1 : ∀ c ∈ w1, isWsC c = true) (hw2 : ∀ c ∈ w2, isWsC c = true) :
    normCollectorL (d1 ++ w1 ++ '/' :: (w2 ++ d2)) =
      natRender (digitsVal d1) ++ '/' :: natRender (digitsVal d2) := by
  have hnows1 : ∀ c ∈ d1, isWsC c = false := fun c hc => not_isWsC_of_isDigitC (h1 c hc)
  have hnows2 : ∀ c ∈ d2, isWsC c = false := fun c hc => not_isWsC_of_isDigitC (h2 c hc)
  have hfilter : (d1 ++ w1 ++ '/' :: (w2 ++ d2)).filter (fun c => !isWsC c) =
      d1 ++ '/' :: d2 := by
    rw [List.append_assoc, List.filter_append, List.filter_append,
      List.filter_cons_of_pos (by decide), List.filter_append]
    rw [List.filter_eq_self.mpr (fun c hc => by rw [hnows1 c hc]; rfl),
      List.filter_eq_nil_iff.mpr (fun c hc => by rw [hw1 c hc]; simp),
      List.filter_eq_nil_iff.mpr (fun c hc => by rw [hw2 c hc]; simp),
      List.filter_eq_self.mpr (fun c hc => by rw [hnows2 c hc]; rfl)]
    rfl
  have hmap : (d1 ++ '/' :: d2).map upChar = d1 ++ '/' :: d2 := by
    rw [List.map_append, mapUp_digits h1, List.map_cons, mapUp_digits h2]
    have : upChar '/' = '/' := by decide
    rw [this]
  unfold normCollectorL
  dsimp only
  rw [pyStripL_slash_token h1 h1n h2 h2n, filter_nws_map_up, hfilter, hmap]
  have hcontains : (d1 ++ '/' :: d2).contains '/' = true :=
    List.elem_eq_true_of_mem (by simp)
  rw [if_pos hcontains]
  have htk : (d1 ++ '/' :: d2).takeWhile (fun c => !(c = '/')) = d1 := by
    apply takeWhile_append_exact
    · intro c hc
      simp [digitC_ne_slash (h1 c hc)]
    · intro c hc
      simp only [List.head?_cons, Option.some.injEq] at hc
      rw [← hc]
      simp
  have hdr : (d1 ++ '/' :: d2).dropWhile (fun c => !(c = '/')) = '/' :: d2 := by
    apply dropWhile_append_exact
    · intro c hc
      simp [digitC_ne_slash (h1 c hc)]
    · intro c hc
      simp only [List.head?_cons, Option.some.injEq] at hc
      rw [← hc]
      simp
  rw [htk, hdr]
  show normalize_num_part d1 ++ '/' :: normalize_num_part d2 = _
  rw [normalize_num_part_digits h1 h1n, normalize_num_part_digits h2 h2n]

theorem slashMatchAt_inv {l g : List Char} (h : slashMatchAt l = some g) :
    ∃ d1 w1 w2 d2, g = d1 ++ w1 ++ '/' :: (w2 ++ d2) ∧
      (∀ c ∈ d1, isDigitC c = true) ∧ 1 ≤ d1.length ∧ d1.length ≤ 4 ∧
      (∀ c ∈ w1, isWsC c = true) ∧ (∀ c ∈ w2, isWsC c = true) ∧
      (∀ c ∈ d2, isDigitC c = true) ∧ 1 ≤ d2.length ∧ d2.length ≤ 4 := by
  unfold slashMatchAt at h
  simp only [span_eq_pair] at h
  split at h
  · exact absurd h (by simp)
  · split at h
    · exact absurd h (by simp)
    · split at h
      · split at h
        · exact absurd h (by simp)
        · split at h
          · simp only [Option.some.injEq] at h
            subst h
            refine ⟨_, _, _, _, rfl, fun c hc2 => List.mem_takeWhile_imp hc2, ?_, ?_,
              fun c hc2 => List.mem_takeWhile_imp hc2,
              fun c hc2 => List.mem_takeWhile_imp hc2,
              fun c hc2 => List.mem_takeWhile_imp hc2, ?_, ?_⟩ <;> omega
          · split at h
            · exact absurd h (by simp)
            · simp only [Option.some.injEq] at h
              subst h
              refine ⟨_, _, _, _, rfl, fun c hc2 => List.mem_takeWhile_imp hc2, ?_, ?_,
                fun c hc2 => List.mem_takeWhile_imp hc2,
                fun c hc2 => List.mem_takeWhile_imp hc2,
                fun c hc2 => List.mem_takeWhile_imp hc2, ?_, ?_⟩ <;> omega
      · exact absurd h (by simp)

theorem slashSearch_inv {l : List Char} : ∀ {prev : Option Char} {g : List Char},
    slashSearch prev l = some g →
    ∃ d1 w1 w2 d2, g = d1 ++ w1 ++ '/' :: (w2 ++ d2) ∧
      (∀ c ∈ d1, isDigitC c = true) ∧ 1 ≤ d1.length ∧ d1.length ≤ 4 ∧
      (∀ c ∈ w1, isWsC c = true) ∧ (∀ c ∈ w2, isWsC c = true) ∧
      (∀ c ∈ d2, isDigitC c = true) ∧ 1 ≤ d2.length ∧ d2.length ≤ 4 := by
  induction l with
  | nil =>
    intro prev g h
    exact absurd h (by simp [slashSearch])
  | cons c r ih =>
    intro prev g h
    unfold slashSearch at h
    revert h
    cases hm : (if boundaryOK prev then slashMatchAt (c :: r) else none) with
    | some g0 =>
      intro h
      simp only [Option.some.injEq] at h
      subst h
      revert hm
      by_cases hb : boundaryOK prev = true
      · rw [if_pos hb]
        exact slashMatchAt_inv
      · rw [if_neg hb]
        intro hm
        cases hm
    | none =>
      intro h
      exact ih h

theorem promoAltMatch_inv : ∀ {pats : List (List Char)} {l p rest : List Char},
    promoAltMatch pats l = some (p, rest) → p ∈ pats := by
  intro pats
  induction pats with
  | nil =>
    intro l p rest h
    cases h
  | cons q qs ih =>
    intro l p rest h
    unfold promoAltMatch at h
    revert h
    cases hm : matchLitCI q l with
    | some r2 =>
      intro h
      simp only [Option.some.injEq, Prod.mk.injEq] at h
      rw [← h.1]
      simp
    | none =>
      intro h
      exact List.mem_cons_of_mem _ (ih h)

theorem promoMatchAt_inv {l p d : List Char} (h : promoMatchAt l = some (p, d)) :
    p ∈ PROMO_PATS ∧ (∀ c ∈ d, isDigitC c = true) ∧ 1 ≤ d.length ∧ d.length ≤ 4 := by
  unfold promoMatchAt at h
  revert h
  cases ha : promoAltMatch PROMO_PATS l with
  | none =>
    intro h
    cases h
  | some pr =>
    obtain ⟨p0, r1⟩ := pr
    intro h
    simp only [span_eq_pair] at h
    split at h
    · exact absurd h (by simp)
    · split at h
      · simp only [Option.some.injEq, Prod.mk.injEq] at h
        obtain ⟨hp, hd⟩ := h
        subst hp
        subst hd
        refine ⟨promoAltMatch_inv ha, fun c hc2 => List.mem_takeWhile_imp hc2, ?_, ?_⟩ <;> omega
      · split at h
        · exact absurd h (by simp)
        · simp only [Option.some.injEq, Prod.mk.injEq] at h
          obtain ⟨hp, hd⟩ := h
          subst hp
          subst hd
          refine ⟨promoAltMatch_inv ha, fun c hc2 => List.mem_takeWhile_imp hc2, ?_, ?_⟩ <;> omega

theorem promoSearch_inv {l : List Char} : ∀ {prev : Option Char} {p d : List Char},
    promoSearch prev l = some (p, d) →
    p ∈ PROMO_PATS ∧ (∀ c ∈ d, isDigitC c = true) ∧ 1 ≤ d.length ∧ d.length ≤ 4 := by
  induction l with
  | nil =>
    intro prev p d h
    exact absurd h (by simp [promoSearch])
  | cons c r ih =>
    intro prev p d h
    unfold promoSearch at h
    revert h
    cases hm : (if boundaryOK prev then promoMatchAt (c :: r) else none) with
    | some g0 =>
      intro h
      simp only [Option.some.injEq] at h
      subst h
      revert hm
      by_cases hb : boundaryOK prev = true
      · rw [if_pos hb]
        intro hm
        exact promoMatchAt_inv hm
      · rw [if_neg hb]
        intro hm
        cases hm
    | none =>
      intro h
      exact ih h

theorem wotcDigitsAt_inv {prev : Option Char} {l d : List Char}
    (h : wotcDigitsAt prev l = some d) :
    (∀ c ∈ d, isDigitC c = true) ∧ 1 ≤ d.length ∧ d.length ≤ 3 := by
  unfold wotcDigitsAt at h
  simp only [span_eq_pair] at h
  split at h
  · exact absurd h (by simp)
  · split at h
    · exact absurd h (by simp)
    · split at h
      · simp only [Option.some.injEq] at h
        subst h
        refine ⟨fun c hc2 => List.mem_takeWhile_imp hc2, ?_, ?_⟩ <;> omega
      · split at h
        · exact absurd h (by simp)
        · simp only [Option.some.injEq] at h
          subst h
          refine ⟨fun c hc2 => List.mem_takeWhile_imp hc2, ?_, ?_⟩ <;> omega

theorem wotcWindow_succ (f : Nat) (prev : Option Char) (l : List Char) :
    wotcWindow (f + 1) prev l =
      match wotcDigitsAt prev l with
      | some d => some d
      | none =>
        match l with
        | [] => none
        | c :: r => wotcWindow f (some c) r := rfl

theorem wotcWindow_inv : ∀ {f : Nat} {prev : Option Char} {l d : List Char},
    wotcWindow f prev l = some d →
    (∀ c ∈ d, isDigitC c = true) ∧ 1 ≤ d.length ∧ d.length ≤ 3 := by
  intro f
  induction f with
  | zero =>
    intro prev l d h
    exact wotcDigitsAt_inv h
  | succ f ih =>
    intro prev l d h
    rw [wotcWindow_succ] at h
    revert h
    cases hm : wotcDigitsAt prev l with
    | some d0 =>
      intro h2
      simp only [Option.some.injEq] at h2
      subst h2
      exact wotcDigitsAt_inv hm
    | none =>
      cases l with
      | nil =>
        intro h2
        cases h2
      | cons c r =>
        intro h2
        exact ih h2

theorem wotcMatchAt_inv {l d : List Char} (h : wotcMatchAt l = some d) :
    (∀ c ∈ d, isDigitC c = true) ∧ 1 ≤ d.length ∧ d.length ≤ 3 := by
  unfold wotcMatchAt at h
  revert h
  cases hm : matchLitCI ['P', 'R', 'O', 'M', 'O'] l with
  | none =>
    intro h
    cases h
  | some r =>
    cases r with
    | nil =>
      intro h
      cases h
    | cons c rr =>
      intro h
      have h2 : (if isWordC c = true then none
          else wotcWindow 140 (some 'O') (c :: rr)) = some d := h
      revert h2
      by_cases hw : isWordC c = true
      · rw [if_pos hw]
        intro h2
        cases h2
      · rw [if_neg hw]
        intro h2
        exact wotcWindow_inv h2

theorem wotcSearch_inv {l : List Char} : ∀ {prev : Option Char} {d : List Char},
    wotcSearch prev l = some d →
    (∀ c ∈ d, isDigitC c = true) ∧ 1 ≤ d.length ∧ d.length ≤ 3 := by
  induction l with
  | nil =>
    intro prev d h
    exact absurd h (by simp [wotcSearch])
  | cons c r ih =>
    intro prev d h
    unfold wotcSearch at h
    revert h
    cases hm : (if boundaryOK prev then wotcMatchAt (c :: r) else none) with
    | some g0 =>
      intro h
      simp only [Option.some.injEq] at h
      subst h
      revert hm
      by_cases hb : boundaryOK prev = true
      · rw [if_pos hb]
        intro hm
        exact wotcMatchAt_inv hm
      · rw [if_neg hb]
        intro hm
        cases hm
    | none =>
      intro h
      exact ih h

theorem parse_slash_number_inv {text t : String} (h : parse_slash_number text = some t) :
    ∃ d1 w1 w2 d2, t.data = d1 ++ w1 ++ '/' :: (w2 ++ d2) ∧
      (∀ c ∈ d1, isDigitC c = true) ∧ 1 ≤ d1.length ∧ d1.length ≤ 4 ∧
      (∀ c ∈ w1, isWsC c = true ∧ ¬(c = ' ')) ∧
      (∀ c ∈ w2, isWsC c = true ∧ ¬(c = ' ')) ∧
      (∀ c ∈ d2, isDigitC c = true) ∧ 1 ≤ d2.length ∧ d2.length ≤ 4 := by
  unfold parse_slash_number at h
  rw [Option.map_eq_some'] at h
  obtain ⟨g, hg, ht⟩ := h
  obtain ⟨d1, w1, w2, d2, hgeq, hd1, h1a, h1b, hw1, hw2, hd2, h2a, h2b⟩ := slashSearch_inv hg
  subst hgeq
  refine ⟨d1, w1.filter (fun c => !(c = ' ')), w2.filter (fun c => !(c = ' ')), d2,
    ?_, hd1, h1a, h1b, ?_, ?_, hd2, h2a, h2b⟩
  · rw [← ht]
    show (d1 ++ w1 ++ '/' :: (w2 ++ d2)).filter (fun c => !(c = ' ')) = _
    rw [List.append_assoc, List.filter_append, List.filter_append,
      List.filter_cons_of_pos (by decide), List.filter_append,
      (List.filter_eq_self (l := d1)).mpr (fun c hc => by simp [digitC_ne_space (hd1 c hc)]),
      (List.filter_eq_self (l := d2)).mpr (fun c hc => by simp [digitC_ne_space (hd2 c hc)]),
      List.append_assoc]
  · intro c hc
    have hm := List.mem_filter.mp hc
    refine ⟨hw1 c hm.1, ?_⟩
    have := hm.2
    simpa using this
  · intro c hc
    have hm := List.mem_filter.mp hc
    refine ⟨hw2 c hm.1, ?_⟩
    have := hm.2
    simpa using this

theorem parse_promo_number_inv {text t : String} (h : parse_promo_number text = some t) :
    (∃ p num, p ∈ PROMO_PATS ∧ (∀ c ∈ num, isDigitC c = true) ∧
      1 ≤ num.length ∧ num.length ≤ 4 ∧
      t.data = p ++ (if startsWith0 num then padRender (digitsVal num) num.length
                     else natRender (digitsVal num))) ∨
    (∃ n : Nat, t.data = natRender n) := by
  unfold parse_promo_number at h
  revert h
  cases hp : promoSearch none text.data with
  | some pn =>
    obtain ⟨p, num⟩ := pn
    intro h
    simp only [Option.some.injEq] at h
    obtain ⟨hmem, hnd, hn1, hn4⟩ := promoSearch_inv hp
    left
    exact ⟨p, num, hmem, hnd, hn1, hn4, by rw [← h]⟩
  | none =>
    intro h
    revert h
    cases hw : wotcSearch none text.data with
    | some d =>
      intro h
      simp only [Option.some.injEq] at h
      right
      exact ⟨digitsVal d, by rw [← h]⟩
    | none =>
      intro h
      cases h

theorem normPromoL_clean {l : List Char}
    (h : ∀ c ∈ l, isWsC c = false ∧ ¬(c = '-') ∧ upChar c = c) :
    normPromoL l = l := by
  unfold normPromoL
  rw [pyStripL_of_no_ws (fun c hc => (h c hc).1)]
  rw [List.filter_eq_self.mpr (fun c hc => by
    unfold promoKeep
    rw [(h c hc).1]
    simp [(h c hc).2.1])]
  have hmap : l.map upChar = l.map id := List.map_congr_left (fun c hc => (h c hc).2.2)
  rw [hmap, List.map_id]

theorem PROMO_PATS_facts : ∀ p ∈ PROMO_PATS,
    (2 ≤ p.length ∧ p.length ≤ 6) ∧
    ∀ c ∈ p, isAlphaC c = true ∧ upChar c = c ∧ isWsC c = false ∧ ¬(c = '-') := by
  decide

theorem digits_clean {d : List Char} (hd : ∀ c ∈ d, isDigitC c = true) :
    ∀ c ∈ d, isWsC c = false ∧ ¬(c = '-') ∧ upChar c = c := fun c hc =>
  ⟨not_isWsC_of_isDigitC (hd c hc), digitC_ne_minus (hd c hc), upChar_of_digit (hd c hc)⟩

theorem promo_token_norms {p num : List Char}
    (hp : p ∈ PROMO_PATS) (hnd : ∀ c ∈ num, isDigitC c = true)
    (hn1 : 1 ≤ num.length) (hn4 : num.length ≤ 4) :
    normPromoL (p ++ (if startsWith0 num then padRender (digitsVal num) num.length
        else natRender (digitsVal num))) =
      p ++ (if startsWith0 num then padRender (digitsVal num) num.length
        else natRender (digitsVal num)) ∧
    (normExtL (p ++ (if startsWith0 num then padRender (digitsVal num) num.length
        else natRender (digitsVal num))) =
      p ++ (if startsWith0 num then padRender (digitsVal num) num.length
        else natRender (digitsVal num)) ∨
      (num = ['0'] ∧
        normExtL (p ++ (if startsWith0 num then padRender (digitsVal num) num.length
          else natRender (digitsVal num))) = p ++ ['0', '0'])) := by
  obtain ⟨⟨hp2, hp6⟩, hpc⟩ := PROMO_PATS_facts p hp
  have hpa : ∀ c ∈ p, isAlphaC c = true := fun c hc => (hpc c hc).1
  set D := (if startsWith0 num then padRender (digitsVal num) num.length
    else natRender (digitsVal num)) with hDdef
  have hDd : ∀ c ∈ D, isDigitC c = true := by
    rw [hDdef]
    split
    · exact padRender_all_digits _ _
    · exact natRender_all_digits _
  have hrle : (natRender (digitsVal num)).length ≤ num.length :=
    natRender_length_le hn1 (digitsVal_lt_pow hnd)
  have hD1 : 1 ≤ D.length := by
    rw [hDdef]
    split
    · rw [padRender_length]
      omega
    · exact List.length_pos.mpr (natRender_ne_nil _)
  have hD4 : D.length ≤ 4 := by
    rw [hDdef]
    split
    · rw [padRender_length]
      omega
    · omega
  have hclean : normPromoL (p ++ D) = p ++ D := by
    apply normPromoL_clean
    intro c hc
    rcases List.mem_append.mp hc with h | h
    · exact ⟨(hpc c h).2.2.1, (hpc c h).2.2.2, (hpc c h).2.1⟩
    · exact digits_clean hDd c h
  refine ⟨hclean, ?_⟩
  have hmapp : p.map upChar = p := by
    have : p.map upChar = p.map id := List.map_congr_left (fun c hc => (hpc c hc).2.1)
    rw [this, List.map_id]
  have hext := normExtL_alpha_digits hpa hp2 hp6 hDd hD1 hD4
  rw [hmapp] at hext
  by_cases hz : startsWith0 num = true
  · obtain ⟨c0, nr, hnum⟩ : ∃ c0 nr, num = c0 :: nr := by
      cases num with
      | nil => simp at hn1
      | cons c r => exact ⟨c, r, rfl⟩
    have hc0 : c0 = '0' := by
      rw [hnum] at hz
      simpa [startsWith0] using hz
    subst hc0
    have hval : digitsVal num = digitsVal nr := by rw [hnum]; exact digitsVal_head_zero
    by_cases hlen1 : num.length = 1
    · have hnr : nr = [] := by
        rw [hnum] at hlen1
        simp at hlen1
        exact hlen1
      have hnum0 : num = ['0'] := by rw [hnum, hnr]
      right
      refine ⟨hnum0, ?_⟩
      have hD0 : D = ['0'] := by
        rw [hDdef, hnum0]
        decide
      rw [hD0] at hext
      rw [hD0, hext]
      have : (if startsWith0 ['0'] then
          padRender (digitsVal ['0']) (max 2 (min 4 (['0'] : List Char).length))
          else natRender (digitsVal ['0'])) = ['0', '0'] := by decide
      rw [this]
    · left
      have hlen2 : 2 ≤ num.length := by
        rw [hnum]
        rw [hnum] at hlen1
        simp only [List.length_cons] at hlen1 ⊢
        omega
      have hDpad : D = padRender (digitsVal num) num.length := by
        rw [hDdef, if_pos hz]
      have hrl : (natRender (digitsVal num)).length < num.length := by
        by_cases h0 : digitsVal num = 0
        · rw [h0]
          have hone : (natRender 0).length = 1 := by decide
          rw [hone]
          omega
        · have hnrne : nr ≠ [] := by
            intro hx
            rw [hval, hx] at h0
            exact h0 rfl
          have hnr1 : 1 ≤ nr.length := List.length_pos.mpr hnrne
          have hnrd : ∀ c ∈ nr, isDigitC c = true := fun c hc =>
            hnd c (by rw [hnum]; exact List.mem_cons_of_mem _ hc)
          have hren : (natRender (digitsVal num)).length ≤ nr.length := by
            rw [hval]
            exact natRender_length_le hnr1 (digitsVal_lt_pow hnrd)
          have hlen : num.length = nr.length + 1 := by rw [hnum]; simp
          omega
      have hDlen : D.length = num.length := by
        rw [hDpad, padRender_length]
        omega
      have hD0 : startsWith0 D = true := by
        rw [hDpad]
        exact (startsWith0_iff_head? _).mpr (padRender_head?_of_lt hrl)
      rw [hext, if_pos hD0, hDlen]
      have hww : max 2 (min 4 num.length) = num.length := by omega
      rw [hww]
      rw [hDpad, digitsVal_padRender]
  · left
    have hDnat : D = natRender (digitsVal num) := by
      rw [hDdef, if_neg hz]
    obtain ⟨c0, nr, hnum⟩ : ∃ c0 nr, num = c0 :: nr := by
      cases num with
      | nil => simp at hn1
      | cons c r => exact ⟨c, r, rfl⟩
    have hc0ne : ¬(c0 = '0') := by
      intro hx
      apply hz
      rw [hnum, hx]
      rfl
    have hc0d : isDigitC c0 = true := hnd c0 (by rw [hnum]; simp)
    have hpos : digitsVal num ≠ 0 := by
      have hge := digitsVal_pos_of_head_ne_zero (r := nr) hc0d hc0ne
      have hge1 : 1 ≤ 10 ^ nr.length := Nat.one_le_pow _ _ (by omega)
      rw [hnum]
      omega
    have hD0f : ¬(startsWith0 D = true) := by
      intro hb
      rw [hDnat] at hb
      exact natRender_head?_ne_zero hpos ((startsWith0_iff_head? _).mp hb)
    rw [hext, if_neg hD0f, hDnat, digitsVal_natRender]

theorem dedupByKey_subset : ∀ (seen : List (Int × Option String)) (l : List Row) (r : Row),
    r ∈ dedupByKey seen l → r ∈ l := by
  intro seen l
  induction l generalizing seen with
  | nil =>
    intro r h
    cases h
  | cons x xs ih =>
    intro r h
    unfold dedupByKey at h
    split at h
    · exact List.mem_cons_of_mem _ (ih _ r h)
    · rcases List.mem_cons.mp h with h2 | h2
      · rw [h2]
        simp
      · exact List.mem_cons_of_mem _ (ih _ r h2)

theorem dedupByKey_covers : ∀ (seen : List (Int × Option String)) (l : List Row) (r : Row),
    r ∈ l → rowKey r ∈ seen ∨ ∃ r2 ∈ dedupByKey seen l, rowKey r2 = rowKey r := by
  intro seen l
  induction l generalizing seen with
  | nil =>
    intro r h
    cases h
  | cons x xs ih =>
    intro r h
    unfold dedupByKey
    by_cases hc : seen.contains (rowKey x) = true
    · rw [if_pos hc]
      rcases List.mem_cons.mp h with h2 | h2
      · left
        rw [h2]
        exact List.elem_iff.mp hc
      · exact ih seen r h2
    · rw [if_neg hc]
      rcases List.mem_cons.mp h with h2 | h2
      · right
        exact ⟨x, by simp, by rw [h2]⟩
      · rcases ih (rowKey x :: seen) r h2 with hin | ⟨r2, hr2, hk⟩
        · rcases List.mem_cons.mp hin with he | hin2
          · right
            exact ⟨x, by simp, by rw [he]⟩
          · left
            exact hin2
        · right
          exact ⟨r2, List.mem_cons_of_mem _ hr2, hk⟩

theorem dedupByKey_distinct : ∀ (seen : List (Int × Option String)) (l : List Row),
    (dedupByKey seen l).Pairwise (fun a b => rowKey a ≠ rowKey b) ∧
    ∀ r ∈ dedupByKey seen l, ¬(rowKey r ∈ seen) := by
  intro seen l
  induction l generalizing seen with
  | nil =>
    exact ⟨List.Pairwise.nil, fun r h => absurd h (List.not_mem_nil r)⟩
  | cons x xs ih =>
    unfold dedupByKey
    by_cases hc : seen.contains (rowKey x) = true
    · rw [if_pos hc]
      exact ih seen
    · rw [if_neg hc]
      obtain ⟨hpw, hnotin⟩ := ih (rowKey x :: seen)
      constructor
      · refine List.Pairwise.cons ?_ hpw
        intro b hb he
        exact hnotin b hb (by rw [← he]; simp)
      · intro r hr
        rcases List.mem_cons.mp hr with h2 | h2
        · rw [h2]
          intro hin
          exact hc (List.elem_eq_true_of_mem hin)
        · intro hin
          exact hnotin r h2 (List.mem_cons_of_mem _ hin)

theorem perm_pair {α : Type} {l : List α} {a b : α} (h : l.Perm [a, b]) :
    l = [a, b] ∨ l = [b, a] := by
  have hlen := h.length_eq
  obtain ⟨x, y, hxy⟩ : ∃ x y, l = [x, y] := by
    cases l with
    | nil => simp at hlen
    | cons x r =>
      cases r with
      | nil => simp at hlen
      | cons y r2 =>
        cases r2 with
        | nil => exact ⟨x, y, rfl⟩
        | cons z r3 => simp at hlen
  subst hxy
  have hx : x = a ∨ x = b := by
    have : x ∈ [a, b] := h.mem_iff.mp (by simp)
    simpa using this
  rcases hx with h2 | h2
  · subst h2
    left
    have h3 : ([y] : List α).Perm [b] := h.cons_inv
    have h4 := List.perm_singleton.mp h3
    simp only [List.cons.injEq] at h4
    rw [h4.1]
  · subst h2
    right
    have h3 : ([x, y] : List α).Perm [x, a] := h.trans (List.Perm.swap x a [])
    have h4 : ([y] : List α).Perm [a] := h3.cons_inv
    have h5 := List.perm_singleton.mp h4
    simp only [List.cons.injEq] at h5
    rw [h5.1]

theorem findSome?_eq_some_split {α β : Type} {f : α → Option β} {l : List α} {b : β}
    (h : l.findSome? f = some b) :
    ∃ l1 a l2, l = l1 ++ a :: l2 ∧ f a = some b ∧ ∀ x ∈ l1, f x = none := by
  induction l with
  | nil => cases h
  | cons x xs ih =>
    rw [List.findSome?_cons] at h
    revert h
    cases hf : f x with
    | some b0 =>
      intro h
      simp only [Option.some.injEq] at h
      subst h
      exact ⟨[], x, xs, rfl, hf, fun y hy => absurd hy (List.not_mem_nil y)⟩
    | none =>
      intro h
      obtain ⟨l1, a, l2, hsplit, hfa, hnone⟩ := ih h
      refine ⟨x :: l1, a, l2, by rw [hsplit]; rfl, hfa, ?_⟩
      intro y hy
      rcases List.mem_cons.mp hy with h2 | h2
      · rw [h2]
        exact hf
      · exact hnone y h2

theorem splitWsAux_tokens : ∀ (l acc : List Char),
    (∀ c ∈ acc, isWsC c = false) →
    ∀ t ∈ splitWsAux l acc, t ≠ [] ∧ ∀ c ∈ t, isWsC c = false := by
  intro l
  induction l with
  | nil =>
    intro acc hacc t ht
    unfold splitWsAux at ht
    split at ht
    · cases ht
    · rename_i hne
      have ht2 : t = acc.reverse := by simpa using ht
      subst ht2
      refine ⟨by simpa using hne, ?_⟩
      intro c hc
      exact hacc c (List.mem_reverse.mp hc)
  | cons c r ih =>
    intro acc hacc t ht
    unfold splitWsAux at ht
    split at ht
    · split at ht
      · exact ih [] (fun x hx => absurd hx (List.not_mem_nil x)) t ht
      · rename_i hne
        rcases List.mem_cons.mp ht with h2 | h2
        · subst h2
          refine ⟨by simpa using hne, ?_⟩
          intro x hx
          exact hacc x (List.mem_reverse.mp hx)
        · exact ih [] (fun x hx => absurd hx (List.not_mem_nil x)) t h2
    · rename_i hws
      refine ih (c :: acc) ?_ t ht
      intro x hx
      rcases List.mem_cons.mp hx with h2 | h2
      · rw [h2]
        simpa using hws
      · exact hacc x h2

theorem splitWsAux_through : ∀ (t l acc : List Char), (∀ c ∈ t, isWsC c = false) →
    splitWsAux (t ++ l) acc = splitWsAux l (t.reverse ++ acc) := by
  intro t
  induction t with
  | nil =>
    intro l acc h
    simp
  | cons c r ih =>
    intro l acc h
    have hc : isWsC c = false := h c (by simp)
    have hstep : splitWsAux (c :: (r ++ l)) acc =
        if isWsC c = true then
          (if acc = [] then splitWsAux (r ++ l) [] else acc.reverse :: splitWsAux (r ++ l) [])
        else splitWsAux (r ++ l) (c :: acc) := rfl
    show splitWsAux (c :: (r ++ l)) acc = splitWsAux l ((c :: r).reverse ++ acc)
    rw [hstep, if_neg (by rw [hc]; simp), ih l (c :: acc) (fun x hx => h x (by simp [hx]))]
    have hres : (c :: r).reverse ++ acc = r.reverse ++ (c :: acc) := by
      simp
    rw [hres]

theorem splitWsL_joinSpace : ∀ (ts : List (List Char)),
    (∀ t ∈ ts, t ≠ [] ∧ ∀ c ∈ t, isWsC c = false) →
    splitWsL (joinSpace ts) = ts := by
  intro ts
  induction ts with
  | nil =>
    intro h
    rfl
  | cons t ts ih =>
    intro h
    obtain ⟨htne, htn⟩ := h t (by simp)
    cases ts with
    | nil =>
      show splitWsL t = [t]
      unfold splitWsL
      have h2 := splitWsAux_through t [] [] htn
      rw [List.append_nil] at h2
      rw [h2]
      unfold splitWsAux
      rw [if_neg (by simpa using htne)]
      simp
    | cons t2 ts2 =>
      show splitWsL (t ++ ' ' :: joinSpace (t2 :: ts2)) = t :: t2 :: ts2
      unfold splitWsL
      rw [splitWsAux_through t (' ' :: joinSpace (t2 :: ts2)) [] htn]
      show splitWsAux (' ' :: joinSpace (t2 :: ts2)) (t.reverse ++ []) = _
      unfold splitWsAux
      rw [if_pos (by decide)]
      rw [if_neg (by simpa using htne)]
      rw [List.append_nil, List.reverse_reverse]
      have := ih (fun x hx => h x (List.mem_cons_of_mem _ hx))
      unfold splitWsL at this
      rw [this]

theorem joinSpace_ne_nil {t : List Char} {ts : List (List Char)} (h : t ≠ []) :
    joinSpace (t :: ts) ≠ [] := by
  cases ts with
  | nil => exact h
  | cons t2 ts2 =>
    show t ++ ' ' :: joinSpace (t2 :: ts2) ≠ []
    simp

theorem joinSpace_head? {t : List Char} {ts : List (List Char)} (htne : t ≠ []) :
    (joinSpace (t :: ts)).head? = t.head? := by
  cases ts with
  | nil => rfl
  | cons t2 ts2 =>
    show (t ++ ' ' :: joinSpace (t2 :: ts2)).head? = t.head?
    rw [List.head?_append_of_ne_nil _ htne]

theorem joinSpace_last_in {ts : List (List Char)} :
    (∀ t ∈ ts, t ≠ []) → ∀ c, (joinSpace ts).getLast? = some c →
      ∃ t ∈ ts, t.getLast? = some c := by
  induction ts with
  | nil =>
    intro _ c hc
    cases hc
  | cons t rest ih =>
    intro hne c hc
    cases rest with
    | nil => exact ⟨t, by simp, hc⟩
    | cons t2 ts2 =>
      have hJne : joinSpace (t2 :: ts2) ≠ [] := joinSpace_ne_nil (hne t2 (by simp))
      have hc2 : (' ' :: joinSpace (t2 :: ts2)).getLast? = some c := by
        rw [← List.getLast?_append_of_ne_nil t
          (show (' ' :: joinSpace (t2 :: ts2)) ≠ [] by simp)]
        exact hc
      have hc3 : (joinSpace (t2 :: ts2)).getLast? = some c := by
        rw [show (' ' :: joinSpace (t2 :: ts2)) = [' '] ++ joinSpace (t2 :: ts2) from rfl,
          List.getLast?_append_of_ne_nil _ hJne] at hc2
        exact hc2
      obtain ⟨tx, htx, hlast⟩ := ih (fun x hx => hne x (List.mem_cons_of_mem _ hx)) c hc3
      exact ⟨tx, List.mem_cons_of_mem _ htx, hlast⟩

theorem joinSpace_strip {ts : List (List Char)}
    (h : ∀ t ∈ ts, t ≠ [] ∧ ∀ c ∈ t, isWsC c = false) :
    pyStripL (joinSpace ts) = joinSpace ts := by
  cases ts with
  | nil => rfl
  | cons t rest =>
    obtain ⟨htne, htn⟩ := h t (by simp)
    apply pyStripL_of_ends
    · intro c hc
      rw [joinSpace_head? htne] at hc
      exact htn c (List.mem_of_mem_head? hc)
    · intro c hc
      obtain ⟨tx, htx, hlast⟩ := joinSpace_last_in (fun x hx => (h x hx).1) c hc
      exact (h tx htx).2 c (List.mem_of_mem_getLast? hlast)

theorem lineName_inv {ln name : List Char} (h : lineName ln = some name) :
    3 ≤ name.length ∧ name.length ≤ 30 ∧
    STOPWORDS.contains (lowStr name) = false ∧
    ∀ t ∈ splitWsL name, STOPWORDS.contains (lowStr t) = false ∧
      CARD_SUFFIXES.contains (lowStr t) = false := by
  unfold lineName at h
  dsimp only at h
  split at h
  · cases h
  · split at h
    · cases h
    · split at h
      · cases h
      · rename_i hkeptne
        split at h
        · cases h
        · rename_i hstop
          split at h
          · cases h
          · rename_i hlen
            simp only [Option.some.injEq] at h
            have hktok : ∀ t ∈ (splitWsL (pyStripL (collapseWs
                (ln.map (fun c => if isNameChar c = true then c else ' '))))).filter
                  (fun t => !(STOPWORDS.contains (lowStr t) ||
                    CARD_SUFFIXES.contains (lowStr t) || t.map lowChar = ['&'])),
                t ≠ [] ∧ ∀ c ∈ t, isWsC c = false := by
              intro t ht
              have hmem := (List.mem_filter.mp ht).1
              exact splitWsAux_tokens _ [] (fun c hc => absurd hc (List.not_mem_nil c)) t hmem
            have hround : splitWsL name = (splitWsL (pyStripL (collapseWs
                (ln.map (fun c => if isNameChar c = true then c else ' '))))).filter
                  (fun t => !(STOPWORDS.contains (lowStr t) ||
                    CARD_SUFFIXES.contains (lowStr t) || t.map lowChar = ['&'])) := by
              rw [← h, joinSpace_strip hktok, splitWsL_joinSpace _ hktok]
            rcases not_or.mp hlen with ⟨h3, h30⟩
            refine ⟨by rw [← h]; omega, by rw [← h]; omega, ?_, ?_⟩
            · revert hstop
              cases hb : STOPWORDS.contains (lowStr name) with
              | false => intro _; rfl
              | true =>
                intro hstop
                rw [← h] at hb
                exact absurd hb hstop
            · intro t ht
              rw [hround] at ht
              have hp := (List.mem_filter.mp ht).2
              simp only [Bool.not_eq_true', Bool.or_eq_false_iff] at hp
              exact ⟨hp.1.1, hp.1.2⟩

/-! ### The claims -/

/-- C1: strategy selection is strictly prioritized.  If the normalized
collector-number key is truthy the resolver reports strategy
`collector_number` and queries the catalog by `collector_number_norm`
exclusively (the promo key is never consulted: the result is the same for
every promo key); otherwise, a truthy promo key gives strategy
`promo_number` and a query by `ext_number_norm`; with neither key the
result is no strategy and an empty candidate set. -/
theorem C1_strategy_priority (db : List Row) (ck pk pk2 : Option String) (r : Row) :
    (truthyS ck = true →
      (query_candidates_by_number db ck pk).1 = some Strategy.collector_number ∧
      query_candidates_by_number db ck pk = query_candidates_by_number db ck pk2 ∧
      (r ∈ (query_candidates_by_number db ck pk).2 ↔
        r ∈ db ∧ r.collector_number_norm = ck)) ∧
    (truthyS ck = false → truthyS pk = true →
      (query_candidates_by_number db ck pk).1 = some Strategy.promo_number ∧
      (r ∈ (query_candidates_by_number db ck pk).2 ↔ r ∈ db ∧ r.ext_number_norm = pk)) ∧
    (truthyS ck = false → truthyS pk = false →
      query_candidates_by_number db ck pk = (none, [])) := by
  unfold query_candidates_by_number
  refine ⟨?_, ?_, ?_⟩
  · intro hck
    rw [if_pos hck, if_pos hck]
    refine ⟨rfl, rfl, ?_⟩
    show r ∈ sortRows (db.filter fun x => x.collector_number_norm == ck) ↔ _
    unfold sortRows
    rw [List.mem_mergeSort, List.mem_filter]
    constructor
    · intro ⟨hm, hb⟩
      exact ⟨hm, beq_iff_eq.mp hb⟩
    · intro ⟨hm, hb⟩
      exact ⟨hm, beq_iff_eq.mpr hb⟩
  · intro hck hpk
    rw [if_neg (by rw [hck]; simp), if_pos hpk]
    refine ⟨rfl, ?_⟩
    show r ∈ sortRows (db.filter fun x => x.ext_number_norm == pk) ↔ _
    unfold sortRows
    rw [List.mem_mergeSort, List.mem_filter]
    constructor
    · intro ⟨hm, hb⟩
      exact ⟨hm, beq_iff_eq.mp hb⟩
    · intro ⟨hm, hb⟩
      exact ⟨hm, beq_iff_eq.mpr hb⟩
  · intro hck hpk
    rw [if_neg (by rw [hck]; simp), if_neg (by rw [hpk]; simp)]

/-- C1 witness: the collector key "59/131" wins over the promo key. -/
theorem C1_strategy_priority_witness :
    truthyS (some "59/131") = true ∧
    (query_candidates_by_number [rowHolo, rowOther] (some "59/131") (some "SM55")).1 =
      some Strategy.collector_number ∧
    (rowHolo ∈ (query_candidates_by_number [rowHolo, rowOther] (some "59/131")
        (some "SM55")).2 ↔
      rowHolo ∈ [rowHolo, rowOther] ∧ rowHolo.collector_number_norm = some "59/131") := by
  have h := (C1_strategy_priority [rowHolo, rowOther] (some "59/131") (some "SM55") none
    rowHolo).1 (by decide)
  exact ⟨by decide, h.1, h.2.2⟩

/-- C2 (amended): the name filter leaves the rows unchanged with
`applied = false` when the name is absent, the row set is empty, or the
*stripped, lower-cased* name is empty; otherwise it keeps exactly the rows
whose display name contains that stripped lower-cased needle, returning
them with `applied = true` when any survive and falling back to the
original rows with `applied = false` when none do.  The result is never
empty when the input is non-empty.  (The spec's unstripped reading of the
needle is refuted by the counterexample.) -/
theorem C2_name_filter (rows : List Row) (nm : String) :
    (filter_candidates_by_pokemon_name rows none = (rows, false)) ∧
    (rows = [] → filter_candidates_by_pokemon_name rows (some nm) = (rows, false)) ∧
    ((pyStripL nm.data).map lowChar = [] →
      filter_candidates_by_pokemon_name rows (some nm) = (rows, false)) ∧
    (rows ≠ [] → (pyStripL nm.data).map lowChar ≠ [] →
      rows.filter (rowNameMatches ((pyStripL nm.data).map lowChar)) ≠ [] →
      filter_candidates_by_pokemon_name rows (some nm) =
        (rows.filter (rowNameMatches ((pyStripL nm.data).map lowChar)), true)) ∧
    (rows ≠ [] → (pyStripL nm.data).map lowChar ≠ [] →
      rows.filter (rowNameMatches ((pyStripL nm.data).map lowChar)) = [] →
      filter_candidates_by_pokemon_name rows (some nm) = (rows, false)) ∧
    (rows ≠ [] → (filter_candidates_by_pokemon_name rows (some nm)).1 ≠ []) := by
  have hempty : rows = [] → filter_candidates_by_pokemon_name rows (some nm) =
      (rows, false) := by
    intro hr
    unfold filter_candidates_by_pokemon_name
    dsimp only
    rw [if_pos (Or.inl (List.isEmpty_iff.mpr hr))]
  have hneedle0 : (pyStripL nm.data).map lowChar = [] →
      filter_candidates_by_pokemon_name rows (some nm) = (rows, false) := by
    intro hn
    unfold filter_candidates_by_pokemon_name
    dsimp only
    by_cases hg : (rows.isEmpty = true ∨ nm = "")
    · rw [if_pos hg]
    · rw [if_neg hg, if_pos hn]
  have hguard : rows ≠ [] → (pyStripL nm.data).map lowChar ≠ [] →
      ¬(rows.isEmpty = true ∨ nm = "") := by
    intro hr hn hg
    rcases hg with hg | hg
    · exact hr (List.isEmpty_iff.mp hg)
    · apply hn
      rw [hg]
      rfl
  have hkeep : rows ≠ [] → (pyStripL nm.data).map lowChar ≠ [] →
      rows.filter (rowNameMatches ((pyStripL nm.data).map lowChar)) ≠ [] →
      filter_candidates_by_pokemon_name rows (some nm) =
        (rows.filter (rowNameMatches ((pyStripL nm.data).map lowChar)), true) := by
    intro hr hn hf
    unfold filter_candidates_by_pokemon_name
    dsimp only
    rw [if_neg (hguard hr hn), if_neg hn,
      if_neg (fun hx => hf (List.isEmpty_iff.mp hx))]
  have hdrop : rows ≠ [] → (pyStripL nm.data).map lowChar ≠ [] →
      rows.filter (rowNameMatches ((pyStripL nm.data).map lowChar)) = [] →
      filter_candidates_by_pokemon_name rows (some nm) = (rows, false) := by
    intro hr hn hf
    unfold filter_candidates_by_pokemon_name
    dsimp only
    rw [if_neg (hguard hr hn), if_neg hn, if_pos (List.isEmpty_iff.mpr hf)]
  refine ⟨rfl, hempty, hneedle0, hkeep, hdrop, ?_⟩
  intro hr
  by_cases hn : (pyStripL nm.data).map lowChar = []
  · rw [hneedle0 hn]
    exact hr
  · by_cases hf : rows.filter (rowNameMatches ((pyStripL nm.data).map lowChar)) = []
    · rw [hdrop hr hn hf]
      exact hr
    · rw [hkeep hr hn hf]
      exact hf

/-- C2 witness: " Snorlax " (with surrounding whitespace) matches the row
named "Snorlax GX" and the filter is applied. -/
theorem C2_name_filter_witness :
    ([rowHolo] : List Row) ≠ [] ∧
    (pyStripL (" Snorlax " : String).data).map lowChar ≠ [] ∧
    [rowHolo].filter
      (rowNameMatches ((pyStripL (" Snorlax " : String).data).map lowChar)) ≠ [] ∧
    filter_candidates_by_pokemon_name [rowHolo] (some " Snorlax ") = ([rowHolo], true) := by
  refine ⟨by decide, by decide, by decide, ?_⟩
  have h := (C2_name_filter [rowHolo] " Snorlax ").2.2.2.1 (by decide) (by decide) (by decide)
  rw [h]
  decide

/-- C2 counterexample: with the name " infernape " no display name contains
the raw token case-insensitively (the spec's reading would return the rows
unfiltered with `applied = false`), yet the code strips the needle first
and applies the filter with `applied = true`. -/
theorem C2_name_filter_cx :
    (filter_candidates_by_pokemon_name [rowOther] (some " infernape ")).2 = true ∧
    containsSeq ((" infernape " : String).data.map lowChar)
      (("Infernape" : String).data.map lowChar) = false ∧
    rowOther.product_name = some "Infernape" := by decide

/-- C3 (amended): `normalize_slash` and `normalize_promo` are idempotent on
every input; `norm_ext_number` is idempotent on every input free of
whitespace and hyphens, but not on all inputs (see the counterexample
"0 1/2", where removing the internal space creates a new slash match). -/
theorem C3_normalizers_idempotent (s t : String)
    (ht : ∀ c ∈ t.data, isWsC c = false ∧ ¬(c = '-')) :
    normalize_slash (normalize_slash s) = normalize_slash s ∧
    normalize_promo (normalize_promo s) = normalize_promo s ∧
    norm_ext_number (norm_ext_number t) = norm_ext_number t :=
  ⟨congrArg String.mk (normSlashL_idem s.data),
   congrArg String.mk (normPromoL_idem s.data),
   congrArg String.mk (normExtL_idem ht)⟩

/-- C3 witness: idempotence at "059/131" and at the clean token "SM05". -/
theorem C3_normalizers_idempotent_witness :
    (∀ c ∈ ("SM05" : String).data, isWsC c = false ∧ ¬(c = '-')) ∧
    norm_ext_number (norm_ext_number "SM05") = norm_ext_number "SM05" ∧
    normalize_slash (normalize_slash "059/131") = normalize_slash "059/131" :=
  ⟨by decide, (C3_normalizers_idempotent "059/131" "SM05" (by decide)).2.2,
   (C3_normalizers_idempotent "059/131" "SM05" (by decide)).1⟩

/-- C3 counterexample: `norm_ext_number` is not idempotent on "0 1/2":
the fallback branch produces "01/2", which the slash branch then rewrites
to "1/2". -/
theorem C3_norm_ext_number_cx :
    norm_ext_number "0 1/2" = "01/2" ∧ norm_ext_number "01/2" = "1/2" ∧
    norm_ext_number (norm_ext_number "0 1/2") ≠ norm_ext_number "0 1/2" := by decide

/-- C4 (amended): lookup-side and ingestion-side normalization agree on
every token the extractor can produce, with one exception.  For slash
tokens, `normalize_slash` agrees with both `normalize_collector_number`
and `norm_ext_number`.  For promo tokens, `normalize_promo` agrees with
`norm_ext_number` unless the token's digit part is exactly "0" (a
`p ++ "0"` token), where the backfill pads to "00" and the lookup key
does not, so that exact-match lookup misses the ingested row. -/
theorem C4_lookup_matches_ingestion (text t : String) :
    (parse_slash_number text = some t →
      normalize_slash t = normalize_collector_number t ∧
      normalize_slash t = norm_ext_number t) ∧
    (parse_promo_number text = some t →
      (normalize_promo t = norm_ext_number t ∨
        ∃ p, p ∈ PROMO_PATS ∧ t.data = p ++ ['0'] ∧
          (normalize_promo t).data = p ++ ['0'] ∧
          (norm_ext_number t).data = p ++ ['0', '0'])) := by
  constructor
  · intro h
    obtain ⟨d1, w1, w2, d2, hdata, hd1, h1a, h1b, hw1, hw2, hd2, h2a, h2b⟩ :=
      parse_slash_number_inv h
    have hw1w : ∀ c ∈ w1, isWsC c = true := fun c hc => (hw1 c hc).1
    have hw2w : ∀ c ∈ w2, isWsC c = true := fun c hc => (hw2 c hc).1
    have h1n : d1 ≠ [] := by
      intro hx
      rw [hx] at h1a
      simp at h1a
    have h2n : d2 ≠ [] := by
      intro hx
      rw [hx] at h2a
      simp at h2a
    constructor
    · show String.mk (normSlashL t.data) = String.mk (normCollectorL t.data)
      rw [hdata, normSlashL_token hd1 h1n hd2 h2n hw1w hw2w,
        normCollectorL_slash_token hd1 h1n hd2 h2n hw1w hw2w]
    · show String.mk (normSlashL t.data) = String.mk (normExtL t.data)
      rw [hdata, normSlashL_token hd1 h1n hd2 h2n hw1w hw2w,
        normExtL_slash_token hd1 h1a h1b hd2 h2a h2b hw1w hw2w]
  · intro h
    rcases parse_promo_number_inv h with ⟨p, num, hmem, hnd, hn1, hn4, hdata⟩ | ⟨n, hdata⟩
    · obtain ⟨hclean, hext⟩ := promo_token_norms hmem hnd hn1 hn4
      rcases hext with hok | ⟨hnum0, hbad⟩
      · left
        show String.mk (normPromoL t.data) = String.mk (normExtL t.data)
        rw [hdata, hclean, hok]
      · subst hnum0
        have hD : (if startsWith0 ['0'] then
            padRender (digitsVal ['0']) (['0'] : List Char).length
            else natRender (digitsVal ['0'])) = ['0'] := by decide
        rw [hD] at hdata hclean hbad
        right
        refine ⟨p, hmem, hdata, ?_, ?_⟩
        · show normPromoL t.data = p ++ ['0']
          rw [hdata, hclean]
        · show normExtL t.data = p ++ ['0', '0']
          rw [hdata, hbad]
    · left
      show String.mk (normPromoL t.data) = String.mk (normExtL t.data)
      rw [hdata, normPromoL_clean (digits_clean (natRender_all_digits n)),
        normExtL_digits (natRender_all_digits n) (natRender_ne_nil n), digitsVal_natRender]

/-- C4 witness: the slash token "059/131" gets the same key from the
lookup normalizer and from both ingestion normalizers. -/
theorem C4_lookup_matches_ingestion_witness :
    parse_slash_number "Snorlax GX 059 / 131" = some "059/131" ∧
    normalize_slash "059/131" = normalize_collector_number "059/131" ∧
    normalize_slash "059/131" = norm_ext_number "059/131" := by
  have h := (C4_lookup_matches_ingestion "Snorlax GX 059 / 131" "059/131").1 (by decide)
  exact ⟨by decide, h.1, h.2⟩

/-- C4 counterexample: the extractor produces the promo token "SM0" (digit
group "0"); the lookup key is "SM0" but the backfilled column holds
"SM00", so the exact-match lookup cannot find the row. -/
theorem C4_promo_zero_cx :
    parse_promo_number "SM 0" = some "SM0" ∧
    normalize_promo "SM0" = "SM0" ∧
    norm_ext_number "SM0" = "SM00" ∧
    normalize_promo "SM0" ≠ norm_ext_number "SM0" := by decide

/-- C5: for a promo/alphanumeric identifier (2–6 letters then 1–4 digits)
`norm_ext_number` renders the numeric suffix zero-padded to width
`clamp(digit-count, 2, 4)` exactly when the digit group has a leading
zero, and renders the plain integer otherwise; in particular
"SM05" ↦ "SM05" and "SM5" ↦ "SM5". -/
theorem C5_promo_width_heuristic (p d : List Char)
    (hpa : ∀ c ∈ p, isAlphaC c = true) (hp2 : 2 ≤ p.length) (hp6 : p.length ≤ 6)
    (hd : ∀ c ∈ d, isDigitC c = true) (hd1 : 1 ≤ d.length) (hd4 : d.length ≤ 4) :
    norm_ext_number (String.mk (p ++ d)) =
      String.mk (p.map upChar ++
        (if startsWith0 d then padRender (digitsVal d) (max 2 (min 4 d.length))
         else natRender (digitsVal d))) ∧
    norm_ext_number "SM05" = "SM05" ∧ norm_ext_number "SM5" = "SM5" :=
  ⟨congrArg String.mk (normExtL_alpha_digits hpa hp2 hp6 hd hd1 hd4),
   by decide, by decide⟩

/-- C5 witness: the heuristic applied to the identifier "SM05". -/
theorem C5_promo_width_heuristic_witness :
    (∀ c ∈ (['S', 'M'] : List Char), isAlphaC c = true) ∧
    norm_ext_number (String.mk (['S', 'M'] ++ ['0', '5'])) =
      String.mk ((['S', 'M'] : List Char).map upChar ++
        (if startsWith0 ['0', '5'] then
          padRender (digitsVal ['0', '5']) (max 2 (min 4 (['0', '5'] : List Char).length))
         else natRender (digitsVal ['0', '5']))) :=
  ⟨by decide,
   (C5_promo_width_heuristic ['S', 'M'] ['0', '5'] (by decide) (by decide) (by decide)
     (by decide) (by decide) (by decide)).1⟩

/-- C6 (amended): on a slash form with digit sides and arbitrary
surrounding whitespace, `normalize_slash` renders "{int(a)}/{int(b)}";
on any input the `try` body rejects, it returns the input `strip()`ed —
NOT upper-cased (the counterexample "x/y" stays lower-case). -/
theorem C6_slash_normalization (a b w0 w1 w2 w3 : List Char) (s : String)
    (ha : ∀ c ∈ a, isDigitC c = true) (han : a ≠ [])
    (hb : ∀ c ∈ b, isDigitC c = true) (hbn : b ≠ [])
    (hw0 : ∀ c ∈ w0, isWsC c = true) (hw1 : ∀ c ∈ w1, isWsC c = true)
    (hw2 : ∀ c ∈ w2, isWsC c = true) (hw3 : ∀ c ∈ w3, isWsC c = true)
    (hfail : slashParse? s.data = none) :
    normalize_slash (String.mk (w0 ++ (a ++ w1 ++ '/' :: (w2 ++ b)) ++ w3)) =
      String.mk (natRender (digitsVal a) ++ '/' :: natRender (digitsVal b)) ∧
    normalize_slash s = String.mk (pyStripL s.data) := by
  constructor
  · show String.mk (normSlashL (w0 ++ (a ++ w1 ++ '/' :: (w2 ++ b)) ++ w3)) = _
    congr 1
    unfold normSlashL
    rw [slashParse?_affix hw0 hw3, slashParse?_token ha han hb hbn hw1 hw2]
    show intRender ((digitsVal a : Nat) : Int) ++ '/' ::
      intRender ((digitsVal b : Nat) : Int) = _
    rw [intRender_ofNat, intRender_ofNat]
  · show String.mk (normSlashL s.data) = _
    rw [normSlashL_none hfail]

/-- C6 witness: " 5 / 131 " normalizes to "5/131", and the non-numeric
"a/b" falls back to its stripped self. -/
theorem C6_slash_normalization_witness :
    normalize_slash (String.mk (([' '] : List Char) ++
        ((['5'] ++ [' '] ++ '/' :: ([' '] ++ ['1', '3', '1'])) ++ [' ']))) =
      String.mk (natRender (digitsVal ['5']) ++ '/' ::
        natRender (digitsVal ['1', '3', '1'])) ∧
    normalize_slash "a/b" = String.mk (pyStripL ("a/b" : String).data) := by
  have h := C6_slash_normalization ['5'] ['1', '3', '1'] [' '] [' '] [' '] [' '] "a/b"
    (by decide) (by decide) (by decide) (by decide) (by decide) (by decide)
    (by decide) (by decide) (by decide)
  exact ⟨by
    have h1 := h.1
    rw [show ([' '] : List Char) ++ (['5'] ++ [' '] ++ '/' :: ([' '] ++ ['1', '3', '1'])) ++
        [' '] = ([' '] : List Char) ++ ((['5'] ++ [' '] ++ '/' ::
        ([' '] ++ ['1', '3', '1'])) ++ [' ']) from by simp] at h1
    exact h1, h.2⟩

/-- C6 counterexample: the failing input "x/y" passes through stripped but
not upper-cased, refuting the spec's "unchanged upper-cased". -/
theorem C6_no_uppercase_cx :
    normalize_slash "x/y" = "x/y" ∧
    String.mk (("x/y" : String).data.map upChar) = "X/Y" ∧
    normalize_slash "x/y" ≠ String.mk (("x/y" : String).data.map upChar) := by decide

theorem dedupByKey_pair {x y : Row} (hk : rowKey y ≠ rowKey x) :
    dedupByKey [] [x, y] = [x, y] := by
  show (if ([] : List (Int × Option String)).contains (rowKey x) = true then
      dedupByKey [] [y] else x :: dedupByKey [rowKey x] [y]) = [x, y]
  rw [if_neg (by simp)]
  show x :: (if ([rowKey x] : List (Int × Option String)).contains (rowKey y) = true then
      dedupByKey [rowKey x] [] else y :: dedupByKey [rowKey y, rowKey x] []) = [x, y]
  rw [if_neg (fun hx => hk (by simpa using List.elem_iff.mp hx))]
  rfl

/-- C7: `summarize_variants` deduplicates the options by the key
`(product_id, sub_type)` (the surviving options have pairwise distinct
keys, come from the input rows, and cover every input row's key), its
`has_variations` flag is exactly "more than one distinct product id or
more than one distinct sub-variant label", and on two rows sharing a
product id but carrying two different non-null sub-variant labels it
reports one product, two sub-variants and `has_variations = true`. -/
theorem C7_summarize_variants (rows : List Row) (r1 r2 : Row) (s1 s2 : String) :
    ((summarize_variants rows).options.Pairwise (fun x y => rowKey x ≠ rowKey y)) ∧
    (∀ r ∈ (summarize_variants rows).options, r ∈ rows) ∧
    (∀ r ∈ rows, ∃ r3 ∈ (summarize_variants rows).options, rowKey r3 = rowKey r) ∧
    ((summarize_variants rows).has_variations =
      (decide (1 < (summarize_variants rows).variant_product_count) ||
       decide (1 < (summarize_variants rows).variant_subtype_count))) ∧
    (r1.product_id = r2.product_id → r1.sub_type = some s1 → r2.sub_type = some s2 →
      s1 ≠ s2 →
      (summarize_variants [r1, r2]).variant_product_count = 1 ∧
      (summarize_variants [r1, r2]).variant_subtype_count = 2 ∧
      (summarize_variants [r1, r2]).has_variations = true) := by
  refine ⟨?_, ?_, ?_, ?_, ?_⟩
  · unfold summarize_variants
    dsimp only
    split
    · simp
    · exact (dedupByKey_distinct [] (sortRows rows)).1
  · intro r h
    unfold summarize_variants at h
    dsimp only at h
    split at h
    · simp at h
    · have h2 := dedupByKey_subset [] (sortRows rows) r h
      unfold sortRows at h2
      exact List.mem_mergeSort.mp h2
  · intro r h
    unfold summarize_variants
    dsimp only
    split
    · rename_i hemp
      exact absurd h (by rw [List.isEmpty_iff.mp hemp]; exact List.not_mem_nil r)
    · have hr : r ∈ sortRows rows := by
        unfold sortRows
        exact List.mem_mergeSort.mpr h
      rcases dedupByKey_covers [] (sortRows rows) r hr with hin | hex
      · exact absurd hin (List.not_mem_nil _)
      · exact hex
  · unfold summarize_variants
    dsimp only
    split
    · rfl
    · rfl
  · intro hpid hsx hsy hne
    have hkey12 : rowKey r2 ≠ rowKey r1 := by
      unfold rowKey
      intro he
      rw [Prod.mk.injEq] at he
      have h2 := he.2
      rw [hsx, hsy] at h2
      simp only [Option.some.injEq] at h2
      exact hne h2.symm
    have hkey21 : rowKey r1 ≠ rowKey r2 := fun he => hkey12 he.symm
    have hcore : ∀ x y : Row, ∀ sx sy : String, x.product_id = y.product_id →
        x.sub_type = some sx → y.sub_type = some sy → sx ≠ sy →
        ((([x, y].map fun r => r.product_id).dedup).length = 1 ∧
         (([x, y].filterMap fun r => r.sub_type).dedup).length = 2) := by
      intro x y sx sy hpid2 hsx2 hsy2 hne2
      constructor
      · show (([x.product_id, y.product_id] : List Int).dedup).length = 1
        rw [hpid2, List.dedup_cons_of_mem (by simp)]
        rfl
      · have hfm : ([x, y].filterMap fun r => r.sub_type) = [sx, sy] := by
          simp [List.filterMap_cons, hsx2, hsy2]
        rw [hfm, List.dedup_cons_of_not_mem (by simp [hne2])]
        rfl
    have hopt2 : dedupByKey [] (sortRows [r1, r2]) = [r1, r2] ∨
        dedupByKey [] (sortRows [r1, r2]) = [r2, r1] := by
      rcases perm_pair (List.mergeSort_perm [r1, r2] rowLE) with hs | hs
      · left
        unfold sortRows
        rw [hs]
        exact dedupByKey_pair hkey12
      · right
        unfold sortRows
        rw [hs]
        exact dedupByKey_pair hkey21
    unfold summarize_variants
    dsimp only
    rw [if_neg (by simp)]
    rcases hopt2 with hopt | hopt
    · obtain ⟨hc1, hc2⟩ := hcore r1 r2 s1 s2 hpid hsx hsy hne
      rw [hopt, hc1, hc2]
      exact ⟨rfl, rfl, rfl⟩
    · obtain ⟨hc1, hc2⟩ := hcore r2 r1 s2 s1 hpid.symm hsy hsx (fun hx => hne hx.symm)
      rw [hopt, hc1, hc2]
      exact ⟨rfl, rfl, rfl⟩

/-- C7 witness: one product id in two printings (Holofoil and Reverse
Holofoil) summarizes to counts 1 and 2 with variations flagged. -/
theorem C7_summarize_variants_witness :
    rowHolo.product_id = rowReverse.product_id ∧
    (summarize_variants [rowHolo, rowReverse]).variant_product_count = 1 ∧
    (summarize_variants [rowHolo, rowReverse]).variant_subtype_count = 2 ∧
    (summarize_variants [rowHolo, rowReverse]).has_variations = true := by
  have h := (C7_summarize_variants [rowHolo, rowReverse] rowHolo rowReverse
    "Holofoil" "Reverse Holofoil").2.2.2.2 (by decide) (by decide) (by decide) (by decide)
  exact ⟨by decide, h.1, h.2.1, h.2.2⟩

/-- C8: whenever name extraction returns a name, its length is within
[3, 30], its lower-cased form is not a stopword, none of its tokens is a
stopword or card-suffix token, and it is produced by the first scanned
candidate line on which the per-line filter succeeds (all earlier
candidate lines fail). -/
theorem C8_extract_name (text nm : String) (h : extract_pokemon_name text = some nm) :
    3 ≤ nm.data.length ∧ nm.data.length ≤ 30 ∧
    STOPWORDS.contains (lowStr nm.data) = false ∧
    (∀ t ∈ splitWsL nm.data, STOPWORDS.contains (lowStr t) = false ∧
      CARD_SUFFIXES.contains (lowStr t) = false) ∧
    ∃ l1 ln l2,
      (let lines := ((splitLinesPy text.data).map pyStripL).filter (fun x => !(x = []));
        lines.take 30 ++ (lines.drop 30).take 30) = l1 ++ ln :: l2 ∧
      lineName ln = some nm.data ∧ ∀ x ∈ l1, lineName x = none := by
  unfold extract_pokemon_name at h
  split at h
  · cases h
  · dsimp only at h
    rw [Option.map_eq_some'] at h
    obtain ⟨name, hfind, hmk⟩ := h
    have hdata : nm.data = name := by rw [← hmk]
    obtain ⟨l1, ln, l2, hsplit, hln, hnone⟩ := findSome?_eq_some_split hfind
    obtain ⟨h3, h30, hstop, htok⟩ := lineName_inv hln
    rw [hdata]
    exact ⟨h3, h30, hstop, htok, l1, ln, l2, hsplit, hln, hnone⟩

/-- C8 witness: the extracted name "Snorlax" respects the bounds. -/
theorem C8_extract_name_witness :
    extract_pokemon_name "BASIC\nSnorlax GX\nHP 120" = some "Snorlax" ∧
    3 ≤ ("Snorlax" : String).data.length ∧ ("Snorlax" : String).data.length ≤ 30 ∧
    STOPWORDS.contains (lowStr ("Snorlax" : String).data) = false := by
  have h := C8_extract_name "BASIC\nSnorlax GX\nHP 120" "Snorlax" (by decide)
  exact ⟨by decide, h.1, h.2.1, h.2.2.1⟩

/-- C9 (code bug): when the OCR call succeeds but a downstream step fails,
the handler reports the distinct error status with the elapsed time, yet
persists no result row at all — the already-obtained OCR text is dropped,
although the success path would have recorded it.  This contradicts the
spec's "previously computed partial state is not lost". -/
theorem C9_text_lost_on_downstream_failure (ms : Nat) (text e : String)
    (downstream : String → Except String (Option Strategy × List Row))
    (hd : downstream text = Except.error e) :
    (run_ocr_handler true true ms (Except.ok text) downstream).displayed_error =
      some ("OCR failed: " ++ truncateMsg e) ∧
    (run_ocr_handler true true ms (Except.ok text) downstream).runs =
      [{ status := "error", elapsed_ms := ms, error_message := some (truncateMsg e) }] ∧
    (run_ocr_handler true true ms (Except.ok text) downstream).results = [] ∧
    (run_ocr_handler true true ms (Except.ok text)
        (fun _ => Except.ok (none, []))).results =
      [{ full_text := text, match_strategy := none, match_count := 0 }] := by
  unfold run_ocr_handler
  dsimp only
  rw [hd]
  exact ⟨rfl, rfl, rfl, rfl⟩

/-- C9 witness: a concrete downstream failure after a successful OCR. -/
theorem C9_text_lost_witness :
    (run_ocr_handler true true 123 (Except.ok "CARD TEXT")
        (fun _ => Except.error "db failure")).results = [] ∧
    (run_ocr_handler true true 123 (Except.ok "CARD TEXT")
        (fun _ => Except.error "db failure")).runs =
      [{ status := "error", elapsed_ms := 123,
         error_message := some (truncateMsg "db failure") }] :=
  ⟨(C9_text_lost_on_downstream_failure 123 "CARD TEXT" "db failure"
      (fun _ => Except.error "db failure") rfl).2.2.1,
   (C9_text_lost_on_downstream_failure 123 "CARD TEXT" "db failure"
      (fun _ => Except.error "db failure") rfl).2.1⟩

/-- C10 (amended): an extracted collector token is 1–4 digits, a '/', and
1–4 digits, where the runs around the '/' contain only non-space
whitespace (spaces are removed, but tabs and newlines survive — see the
counterexample); nevertheless the `try` body of `normalize_slash` always
succeeds on such a token and yields the canonical `{int(a)}/{int(b)}`
form. -/
theorem C10_slash_token_safety (text t : String) (h : parse_slash_number text = some t) :
    ∃ d1 w1 w2 d2,
      t.data = d1 ++ w1 ++ '/' :: (w2 ++ d2) ∧
      (∀ c ∈ d1, isDigitC c = true) ∧ 1 ≤ d1.length ∧ d1.length ≤ 4 ∧
      (∀ c ∈ d2, isDigitC c = true) ∧ 1 ≤ d2.length ∧ d2.length ≤ 4 ∧
      (∀ c ∈ w1 ++ w2, isWsC c = true ∧ ¬(c = ' ')) ∧
      slashParse? t.data = some (((digitsVal d1 : Nat) : Int), ((digitsVal d2 : Nat) : Int)) ∧
      normalize_slash t =
        String.mk (natRender (digitsVal d1) ++ '/' :: natRender (digitsVal d2)) := by
  obtain ⟨d1, w1, w2, d2, hdata, hd1, h1a, h1b, hw1, hw2, hd2, h2a, h2b⟩ :=
    parse_slash_number_inv h
  have hw1w : ∀ c ∈ w1, isWsC c = true := fun c hc => (hw1 c hc).1
  have hw2w : ∀ c ∈ w2, isWsC c = true := fun c hc => (hw2 c hc).1
  have h1n : d1 ≠ [] := by
    intro hx
    rw [hx] at h1a
    simp at h1a
  have h2n : d2 ≠ [] := by
    intro hx
    rw [hx] at h2a
    simp at h2a
  refine ⟨d1, w1, w2, d2, hdata, hd1, h1a, h1b, hd2, h2a, h2b, ?_, ?_, ?_⟩
  · intro c hc
    rcases List.mem_append.mp hc with h2 | h2
    · exact hw1 c h2
    · exact hw2 c h2
  · rw [hdata]
    exact slashParse?_token hd1 h1n hd2 h2n hw1w hw2w
  · show String.mk (normSlashL t.data) = _
    rw [hdata, normSlashL_token hd1 h1n hd2 h2n hw1w hw2w]

/-- C10 witness: the token extracted from "Snorlax GX 059 / 131". -/
theorem C10_slash_token_safety_witness :
    ∃ d1 w1 w2 d2,
      ("059/131" : String).data = d1 ++ w1 ++ '/' :: (w2 ++ d2) ∧
      (∀ c ∈ d1, isDigitC c = true) ∧ 1 ≤ d1.length ∧ d1.length ≤ 4 ∧
      (∀ c ∈ d2, isDigitC c = true) ∧ 1 ≤ d2.length ∧ d2.length ≤ 4 ∧
      (∀ c ∈ w1 ++ w2, isWsC c = true ∧ ¬(c = ' ')) ∧
      slashParse? ("059/131" : String).data =
        some (((digitsVal d1 : Nat) : Int), ((digitsVal d2 : Nat) : Int)) ∧
      normalize_slash "059/131" =
        String.mk (natRender (digitsVal d1) ++ '/' :: natRender (digitsVal d2)) :=
  C10_slash_token_safety "Snorlax GX 059 / 131" "059/131" (by decide)

/-- C10 counterexample: only spaces are removed from the matched group, so
a tab survives inside the extracted token — the spec's "no internal
whitespace" is false — while normalization still succeeds. -/
theorem C10_internal_ws_cx :
    parse_slash_number "12\t/34" = some "12\t/34" ∧
    ("12\t/34" : String).data.any isWsC = true ∧
    normalize_slash "12\t/34" = "12/34" := by decide
